import Mathlib

/-!
Shallow embedding of `src/library/text.rs` (text shaping, reshaping and
decoration) of the typst repository, together with proofs about its
specification.

Modelling conventions:
* Text is a list of codepoints (`List Nat`); every codepoint occupies one
  byte position, so byte indices coincide with list positions.  The newline
  character is codepoint 10.
* `Em` and `Length` values are exact rationals (`ℚ`).
* The font store and the wrapped shaping engine (rustybuzz) are external
  collaborators; they are modelled as a record of pure functions
  (`FontStore`).  `shapeRun face text dir tags` stands for
  `rustybuzz::shape(fonts.get(face).ttf(), tags, buffer)` with the advance
  and offset already converted to em units by `face.to_em`.
* Rust iterators are embedded as the lists they yield; `&mut Vec` pushes
  become list concatenation in the same order.
* All recursions are structural so every definition evaluates by `rfl`.
-/

namespace Typst

/-- Text direction (`Dir` from `crate::geom`); only the two horizontal
directions are used by the shaper. -/
inductive Dir where
  | ltr
  | rtl
deriving DecidableEq

/-- Embedding of `Dir::is_positive`: left-to-right is the positive direction. -/
def Dir.is_positive : Dir → Bool
  | .ltr => true
  | .rtl => false

/-- A visual side (`enum Side` in text.rs). -/
inductive Side where
  | Left
  | Right
deriving DecidableEq

/-- Embedding of `FontStyle` (crate::font). -/
inductive FontStyle where
  | Normal
  | Italic
  | Oblique
deriving DecidableEq

/-- Embedding of `FontVariant` (crate::font): style, weight and stretch.
Weight and stretch are abstracted to numbers; the shaper only passes them
through to the font store. -/
structure FontVariant where
  style : FontStyle
  weight : Nat
  stretch : Nat
deriving DecidableEq

/-- Embedding of `FontFamily` (text.rs).  A named family stores its
(lowercased) name. -/
inductive FontFamily where
  | Serif
  | SansSerif
  | Monospace
  | Named (name : String)
deriving DecidableEq

/-- Embedding of `Case` (text.rs): a case transformation on text. -/
inductive Case where
  | Upper
  | Lower
deriving DecidableEq

/-- One-codepoint case transformation; ASCII model of Rust's
`str::to_uppercase` / `str::to_lowercase` (the real Unicode case maps are
library externals). -/
def Case.applyChar : Case → Nat → Nat
  | .Upper, c => if 97 ≤ c ∧ c ≤ 122 then c - 32 else c
  | .Lower, c => if 65 ≤ c ∧ c ≤ 90 then c + 32 else c

/-- Embedding of `Case::apply` (text.rs): apply the case to a string. -/
def Case.apply (case : Case) (text : List Nat) : List Nat :=
  text.map case.applyChar

/-- Embedding of `VerticalFontMetric` (crate::font). -/
inductive VerticalFontMetric where
  | Ascender
  | CapHeight
  | XHeight
  | Baseline
  | Descender
  | Linear (v : ℚ)
deriving DecidableEq

/-- Embedding of `NumberType` (text.rs). -/
inductive NumberType where
  | Lining
  | OldStyle
deriving DecidableEq

/-- Embedding of `NumberWidth` (text.rs). -/
inductive NumberWidth where
  | Proportional
  | Tabular
deriving DecidableEq

/-- Embedding of `NumberPosition` (text.rs). -/
inductive NumberPosition where
  | Normal
  | Subscript
  | Superscript
deriving DecidableEq

/-- Embedding of `Smart` (crate::eval): an automatic or custom value. -/
inductive Smart (α : Type) where
  | Auto
  | Custom (v : α)
deriving DecidableEq

/-- An OpenType feature (`rustybuzz::Feature`): a 4-byte tag (as the list of
its byte values) and an integer value. -/
structure Feature where
  tag : List Nat
  value : Nat
deriving DecidableEq

/-- The resolved style values read from the `StyleChain` by the shaper: one
field per `TextNode` style constant that text.rs consumes. -/
structure Styles where
  family : List FontFamily
  serif : List String
  sans_serif : List String
  monospace : List String
  fallback : Bool
  style : FontStyle
  weight : Nat
  stretch : Nat
  size : ℚ
  tracking : ℚ
  top_edge : VerticalFontMetric
  bottom_edge : VerticalFontMetric
  kerning : Bool
  smallcaps : Bool
  alternates : Bool
  stylistic_set : Option Nat
  ligatures : Bool
  discretionary_ligatures : Bool
  historical_ligatures : Bool
  number_type : Smart NumberType
  number_width : Smart NumberWidth
  number_position : NumberPosition
  slashed_zero : Bool
  fractions : Bool
  features : List Feature
  strong : Bool
  emph : Bool
  monospaced : Bool
  case : Option Case
deriving DecidableEq

/-- The default style values declared on `TextNode` (text.rs lines 26-107);
named families are stored lowercased by `NamedFamily::new`. -/
def baseStyles : Styles where
  family := [FontFamily.SansSerif]
  serif := ["ibm plex serif"]
  sans_serif := ["ibm plex sans"]
  monospace := ["ibm plex mono"]
  fallback := true
  style := FontStyle.Normal
  weight := 400
  stretch := 1000
  size := 11
  tracking := 0
  top_edge := VerticalFontMetric.CapHeight
  bottom_edge := VerticalFontMetric.Baseline
  kerning := true
  smallcaps := false
  alternates := false
  stylistic_set := none
  ligatures := true
  discretionary_ligatures := false
  historical_ligatures := false
  number_type := Smart.Auto
  number_width := Smart.Auto
  number_position := NumberPosition.Normal
  slashed_zero := false
  fractions := false
  features := []
  strong := false
  emph := false
  monospaced := false
  case := none

/-- Modelled from the spec: `FontWeight::thicken` (crate::font, whose source
is not part of this repository slice) adds to the numeric weight; "strong"
adds 300 ("'strong' adding +300 to weight"). -/
def thicken (w : Nat) (n : Nat) : Nat := w + n

/-- Embedding of `variant` (text.rs): resolve the font variant with `STRONG`
and `EMPH` factored in. -/
def variant (styles : Styles) : FontVariant :=
  let v : FontVariant := ⟨styles.style, styles.weight, styles.stretch⟩
  let v : FontVariant :=
    if styles.strong then ⟨v.style, thicken v.weight 300, v.stretch⟩ else v
  if styles.emph then
    ⟨match v.style with
      | FontStyle.Normal => FontStyle.Italic
      | FontStyle.Italic => FontStyle.Normal
      | FontStyle.Oblique => FontStyle.Normal,
     v.weight, v.stretch⟩
  else v

/-- Embedding of `families` (text.rs): the prioritized iterator over font
family names, embedded as the list it yields.  `head.iter().chain(core)`
followed by `.chain(tail)` is list concatenation; the generic entries of
`FAMILY` are flattened to their configured concrete lists. -/
def families (styles : Styles) : List String :=
  let head := if styles.monospaced then styles.monospace else []
  let core := styles.family.flatMap fun fam =>
    match fam with
    | FontFamily.Named name => [name]
    | FontFamily.Serif => styles.serif
    | FontFamily.SansSerif => styles.sans_serif
    | FontFamily.Monospace => styles.monospace
  let tail :=
    if styles.fallback then
      ["ibm plex sans", "latin modern math", "twitter color emoji"]
    else []
  head ++ core ++ tail

/-- The Family Resolver sequence exactly as the specification words it
(spec section 4.1, claim C6): first the monospace list when the monospace
override is active, then for each entry of the explicit family list the
entry's own name or the concrete list bound to its generic, finally, when
fallback is enabled, the fixed trailing system-fallback list (a sans family,
a math-capable family, a color-emoji family), nothing deduplicated. -/
def families_spec (styles : Styles) : List String :=
  (if styles.monospaced then styles.monospace else [])
    ++ (styles.family.flatMap fun fam =>
          match fam with
          | FontFamily.Named name => [name]
          | FontFamily.Serif => styles.serif
          | FontFamily.SansSerif => styles.sans_serif
          | FontFamily.Monospace => styles.monospace)
    ++ (if styles.fallback then
          ["ibm plex sans", "latin modern math", "twitter color emoji"]
        else [])

/-- Embedding of `tags` (text.rs): collect the OpenType features to apply, in
push order.  Tags are written as the byte values of the Rust byte-string
literals, e.g. `b"kern"` is `[107, 101, 114, 110]`.  Note that the source
pushes the bytes of `"hilg"` ([104, 105, 108, 103]) for historical
ligatures. -/
def tags (styles : Styles) : List Feature :=
  (if !styles.kerning then [⟨[107, 101, 114, 110], 0⟩] else [])
    ++ (if styles.smallcaps then [⟨[115, 109, 99, 112], 1⟩] else [])
    ++ (if styles.alternates then [⟨[115, 97, 108, 116], 1⟩] else [])
    ++ (match styles.stylistic_set with
        | some set => [⟨[115, 115, 48 + set / 10, 48 + set % 10], 1⟩]
        | none => [])
    ++ (if !styles.ligatures then
          [⟨[108, 105, 103, 97], 0⟩, ⟨[99, 108, 105, 103], 0⟩]
        else [])
    ++ (if styles.discretionary_ligatures then [⟨[100, 108, 105, 103], 1⟩] else [])
    ++ (if styles.historical_ligatures then [⟨[104, 105, 108, 103], 1⟩] else [])
    ++ (match styles.number_type with
        | Smart.Auto => []
        | Smart.Custom NumberType.Lining => [⟨[108, 110, 117, 109], 1⟩]
        | Smart.Custom NumberType.OldStyle => [⟨[111, 110, 117, 109], 1⟩])
    ++ (match styles.number_width with
        | Smart.Auto => []
        | Smart.Custom NumberWidth.Proportional => [⟨[112, 110, 117, 109], 1⟩]
        | Smart.Custom NumberWidth.Tabular => [⟨[116, 110, 117, 109], 1⟩])
    ++ (match styles.number_position with
        | NumberPosition.Normal => []
        | NumberPosition.Subscript => [⟨[115, 117, 98, 115], 1⟩]
        | NumberPosition.Superscript => [⟨[115, 117, 112, 115], 1⟩])
    ++ (if styles.slashed_zero then [⟨[122, 101, 114, 111], 1⟩] else [])
    ++ (if styles.fractions then [⟨[102, 114, 97, 99], 1⟩] else [])
    ++ styles.features

/-- Embedding of `ShapedGlyph` (text.rs): a single glyph resulting from
shaping. -/
structure ShapedGlyph where
  face_id : Nat
  glyph_id : Nat
  x_advance : ℚ
  x_offset : ℚ
  text_index : Nat
  safe_to_break : Bool
deriving DecidableEq

instance : Inhabited ShapedGlyph := ⟨⟨0, 0, 0, 0, 0, false⟩⟩

/-- One glyph of the wrapped shaping engine's output
(`GlyphInfo` + `GlyphPosition` of rustybuzz, with the advance and offset
already converted to em units). -/
structure EngineGlyph where
  glyph_id : Nat
  cluster : Nat
  x_advance : ℚ
  x_offset : ℚ
  unsafe_to_break : Bool
deriving DecidableEq

instance : Inhabited EngineGlyph := ⟨⟨0, 0, 0, 0, true⟩⟩

/-- Build the `ShapedGlyph` pushed by `shape_segment` for one engine glyph:
`text_index` is `base + cluster` and `safe_to_break` is the negation of the
engine's unsafe-to-break flag. -/
def mkShaped (face_id base : Nat) (info : EngineGlyph) : ShapedGlyph :=
  ⟨face_id, info.glyph_id, info.x_advance, info.x_offset,
    base + info.cluster, !info.unsafe_to_break⟩

/-- Shift an engine glyph's cluster down by `c` (used to state that shaping a
sub-string yields the same glyphs with clusters re-based at the sub-string's
start). -/
def clusterShift (c : Nat) (g : EngineGlyph) : EngineGlyph :=
  ⟨g.glyph_id, g.cluster - c, g.x_advance, g.x_offset, g.unsafe_to_break⟩

/-- Shift a shaped glyph's text index up by `a` (re-basing a sub-string
shaping result at the sub-range's start within the full text). -/
def shiftTextIndex (a : Nat) (g : ShapedGlyph) : ShapedGlyph :=
  ⟨g.face_id, g.glyph_id, g.x_advance, g.x_offset, g.text_index + a,
    g.safe_to_break⟩

/-- The external font collaborators, as pure functions: `select` is
`FontStore::select`, `shapeRun face text dir tags` is the wrapped shaping
engine applied to the face (advances and offsets already in em units), and
`vmetric face metric size` is `Face::vertical_metric(metric, size)`. -/
structure FontStore where
  select : String → FontVariant → Option Nat
  shapeRun : Nat → List Nat → Dir → List Feature → List EngineGlyph
  vmetric : Nat → VerticalFontMetric → ℚ → ℚ

/-- The body of the `track` loop: a glyph's advance grows by `tracking` when
the peeked next glyph exists and has a different `text_index`. -/
def trackLoop (tracking : ℚ) : List ShapedGlyph → List ShapedGlyph
  | [] => []
  | [g] => [g]
  | g :: next :: rest =>
    (if g.text_index ≠ next.text_index then
      ⟨g.face_id, g.glyph_id, g.x_advance + tracking, g.x_offset,
        g.text_index, g.safe_to_break⟩
     else g) :: trackLoop tracking (next :: rest)

/-- Embedding of `track` (text.rs): apply tracking to a slice of shaped
glyphs; early return when the tracking value is zero. -/
def track (glyphs : List ShapedGlyph) (tracking : ℚ) : List ShapedGlyph :=
  if tracking = 0 then glyphs else trackLoop tracking glyphs

/-- The Tracking Adjuster exactly as claim C3 words it: add the tracking
value to the advance of every glyph except the last glyph of each
multi-glyph cluster (a glyph preceded by one with the same `text_index` and
not followed by one with the same `text_index`); no-op at zero tracking. -/
def track_claim (glyphs : List ShapedGlyph) (tracking : ℚ) : List ShapedGlyph :=
  if tracking = 0 then glyphs else
  (List.range glyphs.length).map fun i =>
    let g := glyphs.getD i default
    let lastOfMulti :=
      (0 < i ∧ (glyphs.getD (i - 1) default).text_index = g.text_index) ∧
      (i + 1 = glyphs.length ∨
        (glyphs.getD (i + 1) default).text_index ≠ g.text_index)
    if lastOfMulti then g
    else ⟨g.face_id, g.glyph_id, g.x_advance + tracking, g.x_offset,
      g.text_index, g.safe_to_break⟩

/-- Embedding of `SliceExt::group_by_key`: maximal runs of consecutive
elements sharing a key. -/
def groupByKey (key : ShapedGlyph → Nat) : List ShapedGlyph → List (Nat × List ShapedGlyph)
  | [] => []
  | g :: rest =>
    match groupByKey key rest with
    | [] => [(key g, [g])]
    | (k, grp) :: out =>
      if key g = k then (key g, g :: grp) :: out
      else (key g, [g]) :: (k, grp) :: out

/-- The loop in the empty-glyphs branch of `measure`: the first family that
the font store resolves to a face. -/
def firstSelectable (fonts : FontStore) (fvariant : FontVariant) :
    List String → Option Nat
  | [] => none
  | fam :: rest =>
    match fonts.select fam fvariant with
    | some id => some id
    | none => firstSelectable fonts fvariant rest

/-- A width × height size (`Size` from crate::geom). -/
structure Size where
  w : ℚ
  h : ℚ
deriving DecidableEq

/-- Embedding of `measure` (text.rs): the size and baseline of a run of
shaped glyphs.  `top` and `bottom` start at zero and are expanded with
`set_max` per face group; the width accumulates every glyph's advance
resolved at the font size.  With no glyphs, the metrics of the first
available font are used. -/
def measure (fonts : FontStore) (glyphs : List ShapedGlyph) (styles : Styles) :
    Size × ℚ :=
  let size := styles.size
  if glyphs.isEmpty then
    match firstSelectable fonts (variant styles) (families styles) with
    | some face_id =>
      let top := max 0 (fonts.vmetric face_id styles.top_edge size)
      let bottom := max 0 (-(fonts.vmetric face_id styles.bottom_edge size))
      (⟨0, top + bottom⟩, top)
    | none => (⟨0, 0⟩, 0)
  else
    let acc := (groupByKey (fun g => g.face_id) glyphs).foldl
      (fun acc fg =>
        ((acc.1.1 + ((fg.2.map fun g => g.x_advance * size).sum),
          max acc.1.2 (fonts.vmetric fg.1 styles.top_edge size)),
          max acc.2 (-(fonts.vmetric fg.1 styles.bottom_edge size))))
      ((0, 0), 0)
    (⟨acc.1.1, acc.1.2 + acc.2⟩, acc.1.2)

/-- Emit the recursive re-shaping call for one maximal tofu run of
`shape_segment`'s glyph loop.  `pending` is the run (in engine order),
`runPrev` the engine glyph just before the run (`infos[k-1]`, absent when
the run starts the output) and `stopAfter` the engine glyph just after the
run (`infos[i+1]`, absent at the end).  The covered text range is
direction-aware: left-to-right takes the first run glyph's cluster to the
following glyph's cluster (or the text length); right-to-left takes the
last run glyph's cluster to the preceding glyph's cluster (or the text
length), because clusters decrease with visual position. -/
def flushRun (text : List Nat) (dir : Dir)
    (reshapeTofu : Nat → List Nat → List ShapedGlyph)
    (pending : List EngineGlyph) (runPrev stopAfter : Option EngineGlyph) :
    List ShapedGlyph :=
  match pending with
  | [] => []
  | p :: ps =>
    let firstG := if dir.is_positive then p else (p :: ps).getLast (List.cons_ne_nil p ps)
    let start := firstG.cluster
    let stop :=
      if dir.is_positive then
        match stopAfter with
        | some g => g.cluster
        | none => text.length
      else
        match runPrev with
        | some g => g.cluster
        | none => text.length
    reshapeTofu start ((text.drop start).take (stop - start))

/-- The glyph-collection loop of `shape_segment` (text.rs lines 505-576),
restructured as a single pass that accumulates the current maximal run of
unmapped (glyph index 0) glyphs in `pending` while remembering in `runPrev`
the glyph preceding the run and in `prev` the previously processed glyph.
A glyph is accepted into the output exactly when its index is nonzero or
`fallback` is false; otherwise it joins the tofu run, which is flushed
through `reshapeTofu` (the recursive `shape_segment` call on the covered
sub-range) when a kept glyph or the end of the output is reached. -/
def collectGlyphs (text : List Nat) (dir : Dir) (base face_id : Nat)
    (fallback : Bool) (reshapeTofu : Nat → List Nat → List ShapedGlyph) :
    Option EngineGlyph → List EngineGlyph → Option EngineGlyph →
    List EngineGlyph → List ShapedGlyph
  | _, pending, runPrev, [] => flushRun text dir reshapeTofu pending runPrev none
  | prev, pending, runPrev, info :: restInfos =>
    if info.glyph_id ≠ 0 ∨ fallback = false then
      flushRun text dir reshapeTofu pending runPrev (some info)
        ++ (mkShaped face_id base info
            :: collectGlyphs text dir base face_id fallback reshapeTofu
                (some info) [] none restInfos)
    else
      collectGlyphs text dir base face_id fallback reshapeTofu (some info)
        (pending ++ [info]) (if pending.isEmpty then prev else runPrev)
        restInfos

/-- Embedding of `shape_segment` (text.rs): shape text with font fallback
using the family list.  The family-selection loop is the structural walk
down `families`; when the list is exhausted the text is shaped once more
with the first face ever selected, accepting tofu glyphs (`fallback` is
false, so the recursive branch of the loop is unreachable and the passed
re-shaper is never invoked). -/
def shape_segment (fonts : FontStore) (base : Nat) (text : List Nat)
    (fvariant : FontVariant) (families : List String) (first_face : Option Nat)
    (dir : Dir) (tgs : List Feature) : List ShapedGlyph :=
  if text.all (fun c => c == 10) then []
  else
    match families with
    | [] =>
      match first_face with
      | none => []
      | some face_id =>
        collectGlyphs text dir base face_id false (fun _ _ => [])
          none [] none (fonts.shapeRun face_id text dir tgs)
    | fam :: rest =>
      match fonts.select fam fvariant with
      | none => shape_segment fonts base text fvariant rest first_face dir tgs
      | some face_id =>
        let ff := first_face.getD face_id
        collectGlyphs text dir base face_id true
          (fun start sub =>
            shape_segment fonts (base + start) sub fvariant rest (some ff) dir tgs)
          none [] none (fonts.shapeRun face_id text dir tgs)

/-- Embedding of `ShapedText` (text.rs): the result of shaping text.  The
borrowed/owned distinction of the `Cow` fields does not affect values and is
dropped. -/
structure ShapedText where
  text : List Nat
  dir : Dir
  styles : Styles
  size : Size
  baseline : ℚ
  glyphs : List ShapedGlyph
deriving DecidableEq

/-- The case-transformed text computed at the head of `shape` (its first
`let text`). -/
def caseApplied (styles : Styles) (text : List Nat) : List Nat :=
  match styles.case with
  | some case => case.apply text
  | none => text

/-- Embedding of `shape` (text.rs): apply the case transform, shape the
segments, apply tracking, measure. -/
def shape (fonts : FontStore) (text : List Nat) (styles : Styles) (dir : Dir) :
    ShapedText :=
  let text :=
    match styles.case with
    | some case => case.apply text
    | none => text
  let glyphs :=
    if text.isEmpty then []
    else
      shape_segment fonts 0 text (variant styles) (families styles) none dir
        (tags styles)
  let glyphs := track glyphs styles.tracking
  let m := measure fonts glyphs styles
  ⟨text, dir, styles, m.1, m.2, glyphs⟩


/-- Embedding of Rust `slice::binary_search_by` with explicit interval
`[left, right)`.  The `fuel` argument only makes the recursion structural;
the interval shrinks at every step, so `glyphs.length` fuel is never
exhausted when starting from the full interval. -/
def binarySearchGo (glyphs : List ShapedGlyph) (cmp : ShapedGlyph → Ordering) :
    Nat → Nat → Nat → Option Nat
  | 0, _, _ => none
  | fuel + 1, left, right =>
    if left < right then
      let mid := left + (right - left) / 2
      match cmp (glyphs.getD mid default) with
      | Ordering.lt => binarySearchGo glyphs cmp fuel (mid + 1) right
      | Ordering.gt => binarySearchGo glyphs cmp fuel left mid
      | Ordering.eq => some mid
    else none

/-- Rust `slice::binary_search_by`: `some idx` embeds `Ok(idx)`; `Err` (which
`find_safe_to_break` discards with `.ok()?`) becomes `none`. -/
def binary_search_by (glyphs : List ShapedGlyph) (cmp : ShapedGlyph → Ordering) :
    Option Nat :=
  binarySearchGo glyphs cmp glyphs.length 0 glyphs.length

/-- The comparator of the binary search in `find_safe_to_break`:
`g.text_index.cmp(&text_index)`, reversed for right-to-left text. -/
def glyphOrdering (ltr : Bool) (text_index : Nat) (g : ShapedGlyph) : Ordering :=
  let ordering := compare g.text_index text_index
  if ltr then ordering else ordering.swap

/-- The walk towards `Side::Left` (`usize::checked_sub`): step down while the
previous glyph exists and still has the searched text index. -/
def walkLeft (glyphs : List ShapedGlyph) (text_index : Nat) : Nat → Nat
  | 0 => 0
  | idx + 1 =>
    match glyphs[idx]? with
    | some g =>
      if g.text_index = text_index then walkLeft glyphs text_index idx else idx + 1
    | none => idx + 1

/-- The walk towards `Side::Right` (`usize::checked_add`): step up while the
next glyph exists and still has the searched text index.  `fuel` makes the
recursion structural; the index is bounded by the glyph count, so
`glyphs.length` fuel is never exhausted. -/
def walkRightGo (glyphs : List ShapedGlyph) (text_index : Nat) :
    Nat → Nat → Nat
  | 0, idx => idx
  | fuel + 1, idx =>
    match glyphs[idx + 1]? with
    | some g =>
      if g.text_index = text_index then walkRightGo glyphs text_index fuel (idx + 1)
      else idx
    | none => idx

/-- The walk towards `Side::Right` starting with full fuel. -/
def walkRight (glyphs : List ShapedGlyph) (text_index : Nat) (idx : Nat) : Nat :=
  walkRightGo glyphs text_index glyphs.length idx

/-- The glyph index inspected by the final safe-to-break check of
`find_safe_to_break`: binary-search any glyph with the text index, walk to
the outermost one towards the given side, and in right-to-left direction
offset by one (the left side of a right-to-left range is exclusive). -/
def find_check_index (st : ShapedText) (text_index : Nat) (towards : Side) :
    Option Nat :=
  let ltr := st.dir.is_positive
  match binary_search_by st.glyphs (glyphOrdering ltr text_index) with
  | none => none
  | some idx0 =>
    let idx :=
      match towards with
      | Side.Left => walkLeft st.glyphs text_index idx0
      | Side.Right => walkRight st.glyphs text_index idx0
    some (if ltr then idx else idx + 1)

/-- Embedding of `ShapedText::find_safe_to_break` (text.rs): the edge cases
0 and the text length are trivially safe; otherwise the checked index must
carry a set `safe_to_break` flag.  The Rust indexing `self.glyphs[idx]` in
the final check is modelled with `getD` and a default glyph whose
`safe_to_break` is false; claim C9 shows the access is in bounds under the
glyph-ordering invariant. -/
def find_safe_to_break (st : ShapedText) (text_index : Nat) (towards : Side) :
    Option Nat :=
  let ltr := st.dir.is_positive
  let len := st.glyphs.length
  if text_index = 0 then some (if ltr then 0 else len)
  else if text_index = st.text.length then some (if ltr then len else 0)
  else
    match find_check_index st text_index towards with
    | none => none
    | some idx =>
      if (st.glyphs.getD idx default).safe_to_break then some idx else none

/-- Embedding of `ShapedText::slice_safe_to_break` (text.rs): swap the range
ends for right-to-left text, resolve both boundaries, and take the glyph
sub-slice (`&glyphs[left .. right]` becomes `drop`/`take`). -/
def slice_safe_to_break (st : ShapedText) (text_range : Nat × Nat) :
    Option (List ShapedGlyph) :=
  let start := if st.dir.is_positive then text_range.1 else text_range.2
  let stop := if st.dir.is_positive then text_range.2 else text_range.1
  match find_safe_to_break st start Side.Left with
  | none => none
  | some left =>
    match find_safe_to_break st stop Side.Right with
    | none => none
    | some right => some ((st.glyphs.drop left).take (right - left))

/-- Embedding of `ShapedText::reshape` (text.rs): reuse the glyph slice when
both boundaries are safe to break (re-measuring it), else re-shape the
sub-string under the same styles and direction. -/
def reshape (fonts : FontStore) (st : ShapedText) (text_range : Nat × Nat) :
    ShapedText :=
  let subtext := (st.text.drop text_range.1).take (text_range.2 - text_range.1)
  match slice_safe_to_break st text_range with
  | some glyphs =>
    let m := measure fonts glyphs st.styles
    ⟨subtext, st.dir, st.styles, m.1, m.2, glyphs⟩
  | none => shape fonts subtext st.styles st.dir

/-- One `push_segment(from, to)` call of `decorate`, the segment recorded as
its pair of endpoints: it is kept when its length reaches the minimum width
or the line is not evading. -/
def pushSegment (evade : Bool) (minWidth f t : ℚ) : List (ℚ × ℚ) :=
  if minWidth ≤ t - f ∨ evade = false then [(f, t)] else []

/-- Embedding of `chunks_exact(2)`: non-overlapping pairs, a trailing odd
element dropped. -/
def chunk2 : List ℚ → List (ℚ × ℚ)
  | a :: b :: rest => (a, b) :: chunk2 rest
  | _ => []

/-- The gap loop of `decorate` together with the final trailing segment:
each gap is padded by `gapPadding` on both sides; the cursor breaks out once
it passes the line end, skips gaps it is already inside, and otherwise emits
a solid sub-segment up to the padded left edge before continuing from the
padded right edge. -/
def decoLoop (evade : Bool) (gapPadding minWidth stopX : ℚ) :
    ℚ → List (ℚ × ℚ) → List (ℚ × ℚ)
  | start, [] => if start < stopX then pushSegment evade minWidth start stopX else []
  | start, gap :: gaps =>
    let l := gap.1 - gapPadding
    let r := gap.2 + gapPadding
    if stopX ≤ start then []
    else if l ≤ start then decoLoop evade gapPadding minWidth stopX r gaps
    else
      pushSegment evade minWidth start l
        ++ decoLoop evade gapPadding minWidth stopX r gaps

/-- Model of Rust `Vec::sort` on decoration intersections: stable ascending
sort. -/
def sortAsc (l : List ℚ) : List ℚ := List.insertionSort (· ≤ ·) l

/-- The evading branch of `ShapedText::decorate` (text.rs lines 879-958)
from the collected outline intersections on: `gap_padding` is 0.08 × font
size, `min_width` is 0.162 × font size; the cursor starts at
`pos.x - extent` (`startX`) and the line ends at
`pos.x + width + 2 · extent` (`stopX`); the intersections are sorted and
processed in non-overlapping pairs. -/
def decorateEvade (size startX stopX : ℚ) (intersections : List ℚ) :
    List (ℚ × ℚ) :=
  let gapPadding := (8 / 100 : ℚ) * size
  let minWidth := (162 / 1000 : ℚ) * size
  decoLoop true gapPadding minWidth stopX startX (chunk2 (sortAsc intersections))

/-- The glyph-ordering invariant assumed by claim C9: glyphs are sorted by
`text_index` consistently with the direction, the outermost cluster starts
at byte 0 (direction-adjusted), and every cluster starts strictly before the
text's end. -/
def GlyphsOrdered (st : ShapedText) : Prop :=
  (st.dir = Dir.ltr → st.glyphs.Pairwise fun a b => a.text_index ≤ b.text_index) ∧
  (st.dir = Dir.rtl → st.glyphs.Pairwise fun a b => b.text_index ≤ a.text_index) ∧
  (st.glyphs ≠ [] → st.dir = Dir.ltr →
    (st.glyphs.getD 0 default).text_index = 0) ∧
  (st.glyphs ≠ [] → st.dir = Dir.rtl →
    (st.glyphs.getD (st.glyphs.length - 1) default).text_index = 0) ∧
  (∀ g ∈ st.glyphs, g.text_index < st.text.length)

/-- The engine's safe-to-break split contract in left-to-right direction
(the glossary meaning of "safe to break"): at the end of the output, or at a
glyph whose cluster starts at `c` and whose unsafe-to-break flag is clear,
the output splits into the outputs for the two halves of the text, clusters
of the right half re-based at `c`. -/
def SplitsLTR (E : List Nat → List EngineGlyph) : Prop :=
  ∀ t j c,
    ((j = (E t).length ∧ c = t.length) ∨
      (j < (E t).length ∧ ((E t).getD j default).cluster = c ∧
        ((E t).getD j default).unsafe_to_break = false)) →
    E (t.take c) = (E t).take j ∧
    E (t.drop c) = ((E t).drop j).map (clusterShift c)

/-- The engine's safe-to-break split contract in right-to-left direction:
clusters decrease with visual position, so the text prefix corresponds to a
suffix of the glyphs.  The boundary at byte `c` sits between the glyph of
cluster `c` (at `j - 1`) and the next glyph (at `j`), whose unsafe-to-break
flag must be clear. -/
def SplitsRTL (E : List Nat → List EngineGlyph) : Prop :=
  ∀ t j c, 0 < j → j < (E t).length →
    ((E t).getD (j - 1) default).cluster = c →
    ((E t).getD j default).unsafe_to_break = false →
    E (t.take c) = (E t).drop j ∧
    E (t.drop c) = ((E t).take j).map (clusterShift c)

/-- Engine output is in visual order: clusters are monotone with the
direction. -/
def ClustersMonotone (dir : Dir) (out : List EngineGlyph) : Prop :=
  match dir with
  | Dir.ltr => out.Pairwise fun a b => a.cluster ≤ b.cluster
  | Dir.rtl => out.Pairwise fun a b => b.cluster ≤ a.cluster

/-- A reference shaping engine used in witnesses: codepoint `c` maps to
glyph `c + 1`, one cluster per codepoint, unit advance, everything safe to
break; `i` is the cluster of the first codepoint. -/
def idRun (i : Nat) : List Nat → List EngineGlyph
  | [] => []
  | c :: cs => ⟨c + 1, i, 1, 0, false⟩ :: idRun (i + 1) cs

/-- A font store whose only face runs the reference engine (left-to-right
output in source order, right-to-left output reversed). -/
def idFonts : FontStore where
  select := fun fam _ => if fam = "idfam" then some 0 else none
  shapeRun := fun _ t dir _ =>
    match dir with
    | Dir.ltr => idRun 0 t
    | Dir.rtl => (idRun 0 t).reverse
  vmetric := fun _ _ _ => 0

/-- Styles selecting only the reference face, no fallback. -/
def stylesId : Styles :=
  { baseStyles with family := [FontFamily.Named "idfam"], fallback := false }

/-- A font store that resolves no family at all. -/
def zeroFonts : FontStore where
  select := fun _ _ => none
  shapeRun := fun _ _ _ _ => []
  vmetric := fun _ _ _ => 0

/-- The concrete font store of the counterexamples: face 3 maps "a"/"b"
normally; face 1 (family "afam") emits tofu for the text "xy" but maps "y"
alone; face 2 (family "bfam") maps "xy"; face 4 maps "a\nb" including the
newline. -/
def cexFonts : FontStore where
  select := fun fam _ =>
    if fam = "cfam" then some 3
    else if fam = "afam" then some 1
    else if fam = "bfam" then some 2
    else if fam = "dfam" then some 4
    else none
  shapeRun := fun f t _ _ =>
    if f = 3 ∧ t = [97, 98] then [⟨5, 0, 1, 0, false⟩, ⟨6, 1, 1, 0, false⟩]
    else if f = 3 ∧ t = [97] then [⟨5, 0, 1, 0, false⟩]
    else if f = 1 ∧ t = [120, 121] then [⟨0, 0, 1, 0, false⟩, ⟨0, 1, 1, 0, true⟩]
    else if f = 1 ∧ t = [121] then [⟨77, 0, 1, 0, false⟩]
    else if f = 2 ∧ t = [120, 121] then [⟨9, 0, 1, 0, false⟩, ⟨11, 1, 1, 0, false⟩]
    else if f = 4 ∧ t = [97, 10, 98] then
      [⟨5, 0, 1, 0, false⟩, ⟨6, 1, 1, 0, false⟩, ⟨7, 2, 1, 0, false⟩]
    else []
  vmetric := fun _ _ _ => 0

/-- Styles selecting face 3 with tracking 1 (counterexample part:
tracking). -/
def stylesTrack : Styles :=
  { baseStyles with
    family := [FontFamily.Named "cfam"]
    fallback := false
    tracking := 1 }

/-- Styles selecting faces 1 then 2 with zero tracking (counterexample part:
fallback re-shaping). -/
def stylesFall : Styles :=
  { baseStyles with
    family := [FontFamily.Named "afam", FontFamily.Named "bfam"]
    fallback := false }

/-- Styles selecting face 4 with zero tracking (counterexample part:
newline sub-range). -/
def stylesNl : Styles :=
  { baseStyles with family := [FontFamily.Named "dfam"], fallback := false }

/-- A right-to-left shaped text satisfying the glyph-ordering invariant,
used as witness input. -/
def rtlShaped : ShapedText :=
  ⟨[97, 98], Dir.rtl, baseStyles, ⟨2, 0⟩, 0,
    [⟨0, 5, 1, 0, 1, true⟩, ⟨0, 6, 1, 0, 0, true⟩]⟩


/-! ## Theorems -/

/-- C6: for every style configuration the family resolver yields exactly the
sequence the specification describes — monospace override list first, then
the flattened explicit family list (named entries by name, generic entries
replaced by their configured concrete lists), then, when fallback is
enabled, the fixed trailing system-fallback triple; nothing deduplicated. -/
theorem families_resolution (styles : Styles) :
    families styles = families_spec styles := rfl

/-- C7: the claim (and the code's own doc comment, text.rs line 72) say that
the historical-ligatures flag enables the OpenType tag "hlig"
(bytes 104, 108, 105, 103); the code instead pushes the misspelt tag "hilg"
(bytes 104, 105, 108, 103).  At the default styles with only the
historical-ligatures flag set, the produced feature list is exactly the
"hilg" feature and does not contain "hlig" at all. -/
theorem historical_ligatures_tag :
    tags { baseStyles with historical_ligatures := true }
        = [⟨[104, 105, 108, 103], 1⟩] ∧
    Feature.mk [104, 108, 105, 103] 1
        ∉ tags { baseStyles with historical_ligatures := true } := by
  decide

/-- Helper: `trackLoop` preserves the number of glyphs. -/
theorem trackLoop_length (t : ℚ) : ∀ l : List ShapedGlyph,
    (trackLoop t l).length = l.length
  | [] => rfl
  | [_] => rfl
  | g :: n :: rest => by
    simp only [trackLoop, List.length_cons]
    exact congrArg (· + 1) (trackLoop_length t (n :: rest))

/-- Helper: pointwise description of `trackLoop` — a glyph's advance grows
by the tracking value exactly when a next glyph exists and starts a
different cluster; all other fields (and such glyphs) are untouched. -/
theorem trackLoop_getD (t : ℚ) : ∀ (l : List ShapedGlyph) (i : Nat),
    i < l.length →
    (trackLoop t l).getD i default =
      (if i + 1 < l.length ∧
          (l.getD i default).text_index ≠ (l.getD (i + 1) default).text_index
       then
        ⟨(l.getD i default).face_id, (l.getD i default).glyph_id,
          (l.getD i default).x_advance + t, (l.getD i default).x_offset,
          (l.getD i default).text_index, (l.getD i default).safe_to_break⟩
       else l.getD i default)
  | [], i, h => by simp at h
  | [g], 0, _ => by simp [trackLoop]
  | [g], i + 1, h => by simp at h
  | g :: n :: rest, 0, _ => by
    by_cases hti : g.text_index ≠ n.text_index <;>
      simp [trackLoop, hti, List.getD_cons_zero, List.getD_cons_succ]
  | g :: n :: rest, i + 1, h => by
    have ih := trackLoop_getD t (n :: rest) i (by simpa using h)
    simp only [trackLoop, List.getD_cons_succ]
    rw [ih]
    simp only [List.length_cons, Nat.add_lt_add_iff_right, List.getD_cons_succ]

/-- C3 counterexample: on a run made of one two-glyph cluster (both glyphs
with `text_index` 0) and tracking 1, the claim ("add the tracking value to
every glyph except the last glyph of each multi-glyph cluster") would bump
the first glyph's advance, but `track` bumps neither glyph: tracking is
added only to glyphs followed by a glyph of a different cluster. -/
theorem track_claim_cex :
    track [⟨0, 1, 0, 0, 0, true⟩, ⟨0, 2, 0, 0, 0, true⟩] 1
        = [⟨0, 1, 0, 0, 0, true⟩, ⟨0, 2, 0, 0, 0, true⟩] ∧
    track_claim [⟨0, 1, 0, 0, 0, true⟩, ⟨0, 2, 0, 0, 0, true⟩] 1
        = [⟨0, 1, 1, 0, 0, true⟩, ⟨0, 2, 0, 0, 0, true⟩] ∧
    track [⟨0, 1, 0, 0, 0, true⟩, ⟨0, 2, 0, 0, 0, true⟩] 1
        ≠ track_claim [⟨0, 1, 0, 0, 0, true⟩, ⟨0, 2, 0, 0, 0, true⟩] 1 := by
  refine ⟨?_, ?_, ?_⟩ <;>
    norm_num [track, trackLoop, track_claim, List.range_succ, List.getD]

/-- C3 amended: for every glyph slice and every tracking value, `track` adds
the tracking value to the `x_advance` of exactly those glyphs that are
followed by a glyph with a different `text_index` — i.e. the last glyph of
each cluster except the run's final glyph — leaving all other advances
unchanged, and is a no-op when the tracking value is zero. -/
theorem track_amended (glyphs : List ShapedGlyph) (tracking : ℚ) (i : Nat)
    (h : i < glyphs.length) :
    (track glyphs tracking).length = glyphs.length ∧
    ((track glyphs tracking).getD i default).x_advance
      = (glyphs.getD i default).x_advance
        + (if tracking ≠ 0 ∧ i + 1 < glyphs.length ∧
              (glyphs.getD i default).text_index
                ≠ (glyphs.getD (i + 1) default).text_index
           then tracking else 0) ∧
    (tracking = 0 → track glyphs tracking = glyphs) := by
  by_cases h0 : tracking = 0
  · refine ⟨by simp [track, h0], ?_, fun _ => by simp [track, h0]⟩
    simp [track, h0]
  · refine ⟨by simp [track, h0, trackLoop_length], ?_, fun hc => absurd hc h0⟩
    have hg := trackLoop_getD tracking glyphs i h
    simp only [track, if_neg h0]
    rw [hg]
    by_cases hcond : i + 1 < glyphs.length ∧
        (glyphs.getD i default).text_index ≠ (glyphs.getD (i + 1) default).text_index
    · rw [if_pos hcond, if_pos ⟨h0, hcond⟩]
    · rw [if_neg hcond, if_neg (fun hc => hcond hc.2), add_zero]

/-- Witness for C3's amended theorem at a concrete two-cluster run: the
first glyph (cluster end, followed by a different cluster) is bumped from
advance 2 to 3, and the final glyph keeps advance 5. -/
theorem track_amended_witness :
    (track [⟨0, 1, 2, 0, 0, true⟩, ⟨0, 2, 5, 0, 1, true⟩] 1).getD 0 default
        = ⟨0, 1, 3, 0, 0, true⟩ ∧
    (track [⟨0, 1, 2, 0, 0, true⟩, ⟨0, 2, 5, 0, 1, true⟩] 1).getD 1 default
        = ⟨0, 2, 5, 0, 1, true⟩ := by
  have h0 := track_amended [⟨0, 1, 2, 0, 0, true⟩, ⟨0, 2, 5, 0, 1, true⟩] 1 0
    (by decide)
  have h1 := track_amended [⟨0, 1, 2, 0, 0, true⟩, ⟨0, 2, 5, 0, 1, true⟩] 1 1
    (by decide)
  refine ⟨?_, ?_⟩ <;> norm_num [track, trackLoop, List.getD]

/-- C10: `track` preserves the number and order of glyphs and every field
except `x_advance` of every glyph (face, glyph index, offset, text index,
safe-to-break flag), and with zero tracking it is the identity. -/
theorem track_frame (glyphs : List ShapedGlyph) (tracking : ℚ) (i : Nat)
    (h : i < glyphs.length) :
    (track glyphs tracking).length = glyphs.length ∧
    ((track glyphs tracking).getD i default).face_id
        = (glyphs.getD i default).face_id ∧
    ((track glyphs tracking).getD i default).glyph_id
        = (glyphs.getD i default).glyph_id ∧
    ((track glyphs tracking).getD i default).x_offset
        = (glyphs.getD i default).x_offset ∧
    ((track glyphs tracking).getD i default).text_index
        = (glyphs.getD i default).text_index ∧
    ((track glyphs tracking).getD i default).safe_to_break
        = (glyphs.getD i default).safe_to_break ∧
    (tracking = 0 → track glyphs tracking = glyphs) := by
  by_cases h0 : tracking = 0
  · simp [track, h0]
  · have hg := trackLoop_getD tracking glyphs i h
    refine ⟨by simp [track, h0, trackLoop_length], ?_⟩
    simp only [track, if_neg h0]
    rw [hg]
    by_cases hcond : i + 1 < glyphs.length ∧
        (glyphs.getD i default).text_index ≠ (glyphs.getD (i + 1) default).text_index
    · rw [if_pos hcond]
      exact ⟨rfl, rfl, rfl, rfl, rfl, fun hc => absurd hc h0⟩
    · rw [if_neg hcond]
      exact ⟨rfl, rfl, rfl, rfl, rfl, fun hc => absurd hc h0⟩

/-- Witness for C10 at a concrete run and nonzero tracking: all fields other
than the advance of the first glyph survive `track` unchanged. -/
theorem track_frame_witness :
    (track [⟨7, 1, 2, 3, 0, true⟩, ⟨8, 2, 5, 4, 1, false⟩] 1).getD 0 default
        = ⟨7, 1, 3, 3, 0, true⟩ := by
  have h0 := track_frame [⟨7, 1, 2, 3, 0, true⟩, ⟨8, 2, 5, 4, 1, false⟩] 1 0
    (by decide)
  norm_num [track, trackLoop, List.getD]

/-- Helper: the decoration gap loop with `evade` set emits at most one
segment per gap plus one trailing segment, and every emitted segment spans
at least the minimum width. -/
theorem decoLoop_bound (gp mw stopX : ℚ) :
    ∀ (gaps : List (ℚ × ℚ)) (start : ℚ),
    (decoLoop true gp mw stopX start gaps).length ≤ gaps.length + 1 ∧
    ∀ s ∈ decoLoop true gp mw stopX start gaps, mw ≤ s.2 - s.1
  | [], start => by
    by_cases hlt : start < stopX
    · by_cases hmw : mw ≤ stopX - start
      · simp [decoLoop, pushSegment, hlt, hmw]
      · simp [decoLoop, pushSegment, hlt, hmw]
    · simp [decoLoop, hlt]
  | gap :: gaps, start => by
    by_cases hstop : stopX ≤ start
    · simp [decoLoop, hstop]
    · by_cases hskip : gap.1 - gp ≤ start
      · have ih := decoLoop_bound gp mw stopX gaps (gap.2 + gp)
        refine ⟨?_, ?_⟩
        · calc (decoLoop true gp mw stopX start (gap :: gaps)).length
              = (decoLoop true gp mw stopX (gap.2 + gp) gaps).length := by
                simp [decoLoop, hstop, hskip]
            _ ≤ gaps.length + 1 := ih.1
            _ ≤ (gap :: gaps).length + 1 := by simp
        · intro s hs
          apply ih.2
          simpa [decoLoop, hstop, hskip] using hs
      · have ih := decoLoop_bound gp mw stopX gaps (gap.2 + gp)
        have hexp : decoLoop true gp mw stopX start (gap :: gaps)
            = pushSegment true mw start (gap.1 - gp)
              ++ decoLoop true gp mw stopX (gap.2 + gp) gaps := by
          simp [decoLoop, hstop, hskip]
        refine ⟨?_, ?_⟩
        · rw [hexp]
          have hp : (pushSegment true mw start (gap.1 - gp)).length ≤ 1 := by
            by_cases hmw : mw ≤ gap.1 - gp - start <;> simp [pushSegment, hmw]
          calc (pushSegment true mw start (gap.1 - gp)
                ++ decoLoop true gp mw stopX (gap.2 + gp) gaps).length
              = (pushSegment true mw start (gap.1 - gp)).length
                + (decoLoop true gp mw stopX (gap.2 + gp) gaps).length := by
                simp
            _ ≤ 1 + (gaps.length + 1) := Nat.add_le_add hp ih.1
            _ ≤ (gap :: gaps).length + 1 := by simp; omega
        · intro s hs
          rw [hexp] at hs
          rcases List.mem_append.mp hs with hs | hs
          · by_cases hmw : mw ≤ gap.1 - gp - start
            · simp [pushSegment, hmw] at hs
              subst hs
              simpa using hmw
            · simp [pushSegment, hmw] at hs
          · exact ih.2 s hs

/-- C5: for an evading decoration line over any intersection list whose
sorted form yields N non-overlapping gaps, the emission loop produces at
most N + 1 solid sub-segments; every emitted sub-segment is at least the
minimum width 0.162 × font size long (narrower sub-segments are dropped),
hence of non-negative length for a non-negative font size.  The 0.08 × font
size padding of each gap side is the `gapPadding` argument fed to the loop
by `decorateEvade`. -/
theorem decorate_gap_monotone (size startX stopX : ℚ) (intersections : List ℚ)
    (hsize : 0 ≤ size) :
    (decorateEvade size startX stopX intersections).length
        ≤ (chunk2 (sortAsc intersections)).length + 1 ∧
    ∀ s ∈ decorateEvade size startX stopX intersections,
      (162 / 1000 : ℚ) * size ≤ s.2 - s.1 ∧ 0 ≤ s.2 - s.1 := by
  have h := decoLoop_bound ((8 / 100 : ℚ) * size) ((162 / 1000 : ℚ) * size)
    stopX (chunk2 (sortAsc intersections)) startX
  refine ⟨h.1, fun s hs => ?_⟩
  have hmw := h.2 s hs
  have hpos : (0 : ℚ) ≤ (162 / 1000 : ℚ) * size := by positivity
  exact ⟨hmw, hpos.trans hmw⟩

/-- Witness for C5 at a concrete line: font size 1, line from 0 to 10, one
intersection pair (2, 3); two segments are emitted, within the bound
1 + 1. -/
theorem decorate_gap_monotone_witness :
    (decorateEvade 1 0 10 [2, 3]).length ≤ 2 ∧
    ∀ s ∈ decorateEvade 1 0 10 [2, 3],
      (162 / 1000 : ℚ) ≤ s.2 - s.1 ∧ 0 ≤ s.2 - s.1 := by
  have h := decorate_gap_monotone 1 0 10 [2, 3] (by norm_num)
  constructor
  · have hc : (chunk2 (sortAsc [2, 3])).length + 1 = 2 := by
      norm_num [sortAsc, chunk2, List.insertionSort, List.orderedInsert]
    exact hc ▸ h.1
  · intro s hs
    simpa using h.2 s hs

/-- Helper: when no family in the list resolves to a face (and there is no
first face yet), `shape_segment` runs off the family list and yields no
glyphs. -/
theorem shape_segment_select_none (fonts : FontStore) (base : Nat)
    (text : List Nat) (fvariant : FontVariant) (dir : Dir) (tgs : List Feature) :
    ∀ fams : List String, (∀ fam ∈ fams, fonts.select fam fvariant = none) →
    shape_segment fonts base text fvariant fams none dir tgs = []
  | [], _ => by
    by_cases hnl : text.all (fun c => c == 10) <;> simp [shape_segment, hnl]
  | fam :: rest, h => by
    have hs : fonts.select fam fvariant = none := h fam (List.mem_cons_self fam rest)
    have ih := shape_segment_select_none fonts base text fvariant dir tgs rest
      (fun f hf => h f (List.mem_cons_of_mem fam hf))
    by_cases hnl : text.all (fun c => c == 10)
    · simp [shape_segment, hnl]
    · simp [shape_segment, hnl, hs, ih]

/-- Helper: when no family resolves to a face, the empty-run metrics loop of
`measure` finds nothing either. -/
theorem firstSelectable_none (fonts : FontStore) (fvariant : FontVariant) :
    ∀ fams : List String, (∀ fam ∈ fams, fonts.select fam fvariant = none) →
    firstSelectable fonts fvariant fams = none
  | [], _ => rfl
  | fam :: rest, h => by
    have hs : fonts.select fam fvariant = none := h fam (List.mem_cons_self fam rest)
    have ih := firstSelectable_none fonts fvariant rest
      (fun f hf => h f (List.mem_cons_of_mem fam hf))
    simp [firstSelectable, hs, ih]

/-- C8: if no family of the resolved family sequence selects any face from
the font store, `shape` returns a `ShapedText` with zero glyphs, zero width
and height, and zero baseline — a defined degraded output (the function is
total; no error is possible). -/
theorem shape_degrades_without_face (fonts : FontStore) (text : List Nat)
    (styles : Styles) (dir : Dir)
    (h : ∀ fam ∈ families styles, fonts.select fam (variant styles) = none) :
    (shape fonts text styles dir).glyphs = [] ∧
    (shape fonts text styles dir).size = ⟨0, 0⟩ ∧
    (shape fonts text styles dir).baseline = 0 := by
  have hfs := firstSelectable_none fonts (variant styles) (families styles) h
  have hglyphs : (shape fonts text styles dir).glyphs = [] := by
    have h1 : (shape fonts text styles dir).glyphs
        = track (if (match styles.case with
                     | some case => Case.apply case text
                     | none => text).isEmpty then []
                 else shape_segment fonts 0
                   (match styles.case with
                    | some case => Case.apply case text
                    | none => text)
                   (variant styles) (families styles) none dir (tags styles))
            styles.tracking := rfl
    rw [h1, shape_segment_select_none fonts 0 _ (variant styles) dir (tags styles)
      (families styles) h, ite_self]
    by_cases h0 : styles.tracking = 0 <;> simp [track, trackLoop, h0]
  have hsz : (shape fonts text styles dir).size
      = (measure fonts ((shape fonts text styles dir).glyphs) styles).1 := rfl
  have hbl : (shape fonts text styles dir).baseline
      = (measure fonts ((shape fonts text styles dir).glyphs) styles).2 := rfl
  rw [hglyphs] at hsz hbl
  refine ⟨hglyphs, ?_, ?_⟩
  · rw [hsz]
    simp [measure, hfs]
  · rw [hbl]
    simp [measure, hfs]

/-- Witness for C8: the store that resolves nothing, at the default styles
over the text "H". -/
theorem shape_degrades_without_face_witness :
    (shape zeroFonts [72] baseStyles Dir.ltr).glyphs = [] ∧
    (shape zeroFonts [72] baseStyles Dir.ltr).size = ⟨0, 0⟩ ∧
    (shape zeroFonts [72] baseStyles Dir.ltr).baseline = 0 :=
  shape_degrades_without_face zeroFonts [72] baseStyles Dir.ltr
    (fun _ _ => rfl)

/-- C2 counterexample: "afam" is the original, first-requested family; the
store resolves it to face 1, which emits glyph index 0 for both clusters of
the text "xy".  The claim says a glyph with index 0 emitted by this face is
accepted into the output as-is — but the output contains no glyph of face 1
at all: the tofu run is re-shaped with the remaining family ("bfam",
face 2), because the code treats tofu as unmapped for every face obtained
from the family iterator, the first one included. -/
theorem shape_segment_first_family_tofu_cex :
    cexFonts.select "afam" (variant baseStyles) = some 1 ∧
    cexFonts.shapeRun 1 [120, 121] Dir.ltr []
        = [⟨0, 0, 1, 0, false⟩, ⟨0, 1, 1, 0, true⟩] ∧
    shape_segment cexFonts 0 [120, 121] (variant baseStyles) ["afam", "bfam"]
        none Dir.ltr []
      = [⟨2, 9, 1, 0, 0, true⟩, ⟨2, 11, 1, 0, 1, true⟩] ∧
    ∀ g ∈ shape_segment cexFonts 0 [120, 121] (variant baseStyles)
        ["afam", "bfam"] none Dir.ltr [],
      ¬(g.face_id = 1 ∧ g.glyph_id = 0) := by
  refine ⟨rfl, rfl, rfl, by decide⟩

/-- Helper: membership in a flushed tofu run comes from the recursive
re-shaper. -/
theorem flushRun_mem (text : List Nat) (dir : Dir)
    (rt : Nat → List Nat → List ShapedGlyph) (pending : List EngineGlyph)
    (runPrev stopAfter : Option EngineGlyph) (g : ShapedGlyph)
    (hg : g ∈ flushRun text dir rt pending runPrev stopAfter) :
    ∃ s sub, g ∈ rt s sub := by
  match pending with
  | [] => simp [flushRun] at hg
  | p :: ps =>
    simp only [flushRun] at hg
    exact ⟨_, _, hg⟩

/-- C2 amended: in `shape_segment`'s glyph loop, a glyph with index 0 is
treated as unmapped (joined to a run that is recursively re-shaped) if and
only if the `fallback` flag is set — that is, whenever the face was obtained
from the family iterator, the original, first-requested family included;
glyph results are accepted as-is even with index 0 exactly when the family
list is exhausted and the text is shaped once more with the first face ever
selected (`fallback` false). -/
theorem shape_segment_tofu_amended :
    (∀ (text : List Nat) (dir : Dir) (base face_id : Nat)
        (rt : Nat → List Nat → List ShapedGlyph) (prev : Option EngineGlyph)
        (infos : List EngineGlyph),
      collectGlyphs text dir base face_id false rt prev [] none infos
        = infos.map (mkShaped face_id base)) ∧
    (∀ (text : List Nat) (dir : Dir) (base face_id : Nat)
        (rt : Nat → List Nat → List ShapedGlyph)
        (prev runPrev : Option EngineGlyph)
        (pending infos : List EngineGlyph) (g : ShapedGlyph),
      g ∈ collectGlyphs text dir base face_id true rt prev pending runPrev infos →
      g.glyph_id = 0 → ∃ s sub, g ∈ rt s sub) := by
  constructor
  · intro text dir base face_id rt prev infos
    induction infos generalizing prev with
    | nil => rfl
    | cons info rest ih =>
      have hc : info.glyph_id ≠ 0 ∨ false = false := Or.inr rfl
      simp only [collectGlyphs, flushRun, List.nil_append, List.map_cons]
      rw [ih (some info)]
      simp
  · intro text dir base face_id rt prev runPrev pending infos
    induction infos generalizing prev runPrev pending with
    | nil =>
      intro g hg h0
      exact flushRun_mem text dir rt pending runPrev none g hg
    | cons info rest ih =>
      intro g hg h0
      by_cases h1 : info.glyph_id = 0
      · have hc : ¬(info.glyph_id ≠ 0 ∨ true = false) := by simp [h1]
        rw [collectGlyphs, if_neg hc] at hg
        exact ih (some info) (if pending.isEmpty then prev else runPrev)
          (pending ++ [info]) g hg h0
      · have hc : info.glyph_id ≠ 0 ∨ true = false := Or.inl h1
        rw [collectGlyphs, if_pos hc] at hg
        rcases List.mem_append.mp hg with hflush | hrest
        · exact flushRun_mem text dir rt pending runPrev (some info) g hflush
        · rcases List.mem_cons.mp hrest with hmk | hrec
          · rw [hmk] at h0
            exact absurd h0 h1
          · exact ih (some info) none [] g hrec h0

/-- Witness for C2's amended theorem: with the fallback flag clear a tofu
engine glyph is accepted as-is (first conjunct, applied at one glyph), and
with the flag set a tofu glyph in the output can only come from the
recursive re-shaper (second conjunct, applied at a one-glyph run). -/
theorem shape_segment_tofu_amended_witness :
    collectGlyphs [100] Dir.ltr 0 9 false (fun _ _ => []) none [] none
        [⟨0, 0, 1, 0, false⟩] = [⟨9, 0, 1, 0, 0, true⟩] ∧
    (∃ s sub, (⟨0, 0, 0, 0, 0, false⟩ : ShapedGlyph)
        ∈ (fun (_ : Nat) (_ : List Nat) =>
            [(⟨0, 0, 0, 0, 0, false⟩ : ShapedGlyph)]) s sub) := by
  constructor
  · rw [shape_segment_tofu_amended.1 [100] Dir.ltr 0 9 (fun _ _ => []) none
      [⟨0, 0, 1, 0, false⟩]]
    rfl
  · exact shape_segment_tofu_amended.2 [100] Dir.ltr 0 9
      (fun _ _ => [⟨0, 0, 0, 0, 0, false⟩]) none none []
      [⟨0, 0, 1, 0, false⟩] ⟨0, 0, 0, 0, 0, false⟩ (by decide) rfl

/-- C4: for any shaped text over nonempty text, in either direction, the
boundaries 0 and the full text length are resolved as trivially safe by
`find_safe_to_break` (mapping, direction-adjusted, to the first and last
glyph offsets), so reshaping over the full range resolves the entire glyph
sequence and `reshape` reuses it unchanged instead of re-shaping. -/
theorem reshape_full_range (fonts : FontStore) (st : ShapedText)
    (h : st.text ≠ []) :
    slice_safe_to_break st (0, st.text.length) = some st.glyphs ∧
    (reshape fonts st (0, st.text.length)).glyphs = st.glyphs := by
  have hlen : st.text.length ≠ 0 := fun hh => h (List.length_eq_zero.mp hh)
  have hslice : slice_safe_to_break st (0, st.text.length) = some st.glyphs := by
    cases hdir : st.dir
    · simp [slice_safe_to_break, find_safe_to_break, hdir, Dir.is_positive, hlen]
    · simp [slice_safe_to_break, find_safe_to_break, hdir, Dir.is_positive, hlen]
  exact ⟨hslice, by simp [reshape, hslice]⟩

/-- Witness for C4 at a concrete right-to-left shaped text of two glyphs. -/
theorem reshape_full_range_witness :
    slice_safe_to_break rtlShaped (0, 2) = some rtlShaped.glyphs ∧
    (reshape zeroFonts rtlShaped (0, 2)).glyphs = rtlShaped.glyphs :=
  reshape_full_range zeroFonts rtlShaped (by decide)

/-- Helper: a successful binary search returns an index within the searched
interval at which the comparator answers `eq`. -/
theorem binarySearchGo_some (glyphs : List ShapedGlyph)
    (cmp : ShapedGlyph → Ordering) :
    ∀ (fuel left right idx : Nat),
    binarySearchGo glyphs cmp fuel left right = some idx →
    left ≤ idx ∧ idx < right ∧ cmp (glyphs.getD idx default) = Ordering.eq
  | 0, _, _, _, h => by simp [binarySearchGo] at h
  | fuel + 1, left, right, idx, h => by
    by_cases hlt : left < right
    · simp only [binarySearchGo, if_pos hlt] at h
      rcases hcmp : cmp (glyphs.getD (left + (right - left) / 2) default) with _ | _ | _
      · rw [hcmp] at h
        have ih := binarySearchGo_some glyphs cmp fuel
          (left + (right - left) / 2 + 1) right idx h
        exact ⟨by omega, ih.2.1, ih.2.2⟩
      · rw [hcmp] at h
        cases h
        exact ⟨Nat.le_add_right left _, by omega, hcmp⟩
      · rw [hcmp] at h
        have ih := binarySearchGo_some glyphs cmp fuel
          left (left + (right - left) / 2) idx h
        exact ⟨ih.1, by omega, ih.2.2⟩
    · simp [binarySearchGo, if_neg hlt] at h

/-- Helper: the comparator of `find_safe_to_break` answers `eq` exactly on
the searched text index, in both directions. -/
theorem glyphOrdering_eq (ltr : Bool) (text_index : Nat) (g : ShapedGlyph) :
    glyphOrdering ltr text_index g = Ordering.eq ↔ g.text_index = text_index := by
  cases ltr
  · simp only [glyphOrdering, if_neg (Bool.false_ne_true)]
    rcases hc : compare g.text_index text_index with _ | _ | _ <;>
      simp [Ordering.swap, ← compare_eq_iff_eq (a := g.text_index) (b := text_index), hc]
  · simp only [glyphOrdering, if_pos rfl]
    exact compare_eq_iff_eq

/-- Helper: the walk towards the left stays at or below its start and on
glyphs with the searched text index. -/
theorem walkLeft_spec (glyphs : List ShapedGlyph) (text_index : Nat) :
    ∀ i, (glyphs.getD i default).text_index = text_index →
    walkLeft glyphs text_index i ≤ i ∧
    (glyphs.getD (walkLeft glyphs text_index i) default).text_index = text_index
  | 0, h => ⟨Nat.le_refl 0, h⟩
  | i + 1, h => by
    rcases hget : glyphs[i]? with _ | g
    · exact ⟨by simp [walkLeft, hget],
        by simpa [walkLeft, hget, List.getD_eq_getElem?_getD] using h⟩
    · by_cases hti : g.text_index = text_index
      · have hgd : (glyphs.getD i default).text_index = text_index := by
          simp [List.getD_eq_getElem?_getD, hget, hti]
        have ih := walkLeft_spec glyphs text_index i hgd
        refine ⟨?_, ?_⟩
        · simp only [walkLeft, hget, if_pos hti]
          omega
        · simpa only [walkLeft, hget, if_pos hti] using ih.2
      · exact ⟨by simp [walkLeft, hget, hti],
        by simpa [walkLeft, hget, hti, List.getD_eq_getElem?_getD] using h⟩

/-- Helper: the walk towards the right stays at or above its start, within
the glyph count, and on glyphs with the searched text index. -/
theorem walkRightGo_spec (glyphs : List ShapedGlyph) (text_index : Nat) :
    ∀ (fuel i : Nat), i < glyphs.length →
    (glyphs.getD i default).text_index = text_index →
    i ≤ walkRightGo glyphs text_index fuel i ∧
    walkRightGo glyphs text_index fuel i < glyphs.length ∧
    (glyphs.getD (walkRightGo glyphs text_index fuel i) default).text_index
      = text_index
  | 0, i, hi, h => ⟨Nat.le_refl i, hi, h⟩
  | fuel + 1, i, hi, h => by
    rcases hget : glyphs[i + 1]? with _ | g
    · exact ⟨by simp [walkRightGo, hget], by simp [walkRightGo, hget, hi],
        by simpa [walkRightGo, hget, List.getD_eq_getElem?_getD] using h⟩
    · by_cases hti : g.text_index = text_index
      · have hlt : i + 1 < glyphs.length := by
          by_contra hc
          rw [List.getElem?_eq_none (by omega)] at hget
          exact Option.noConfusion hget
        have hgd : (glyphs.getD (i + 1) default).text_index = text_index := by
          simp [List.getD_eq_getElem?_getD, hget, hti]
        have ih := walkRightGo_spec glyphs text_index fuel (i + 1) hlt hgd
        refine ⟨?_, ?_, ?_⟩
        · simp only [walkRightGo, hget, if_pos hti]
          omega
        · simpa only [walkRightGo, hget, if_pos hti] using ih.2.1
        · simpa only [walkRightGo, hget, if_pos hti] using ih.2.2
      · exact ⟨by simp [walkRightGo, hget, hti], by simp [walkRightGo, hget, hti, hi],
        by simpa [walkRightGo, hget, hti, List.getD_eq_getElem?_getD] using h⟩

/-- C9: under the glyph-ordering invariant, `find_safe_to_break` only makes
in-bounds glyph accesses: for an interior text index (the only case in which
glyphs are inspected) the index checked for its safe-to-break flag — in
right-to-left direction the walk result incremented by one — is strictly
below the glyph count, and any returned offset is at most the glyph count,
so the glyph sub-slice taken in `slice_safe_to_break` is well formed. -/
theorem find_safe_to_break_inbounds (st : ShapedText) (hinv : GlyphsOrdered st)
    (text_index : Nat) (towards : Side) :
    (text_index ≠ 0 → text_index ≠ st.text.length →
      ∀ idx, find_check_index st text_index towards = some idx →
        idx < st.glyphs.length) ∧
    (∀ r, find_safe_to_break st text_index towards = some r →
      r ≤ st.glyphs.length) := by
  have hpart1 : text_index ≠ 0 → text_index ≠ st.text.length →
      ∀ idx, find_check_index st text_index towards = some idx →
        idx < st.glyphs.length := by
    intro h0 _ idx hidx
    rcases hbs : binary_search_by st.glyphs
        (glyphOrdering st.dir.is_positive text_index) with _ | idx0
    · simp [find_check_index, hbs] at hidx
    · have hspec := binarySearchGo_some st.glyphs
        (glyphOrdering st.dir.is_positive text_index) st.glyphs.length 0
        st.glyphs.length idx0 hbs
      have hti : (st.glyphs.getD idx0 default).text_index = text_index :=
        (glyphOrdering_eq st.dir.is_positive text_index _).mp hspec.2.2
      have hidx0 : idx0 < st.glyphs.length := hspec.2.1
      have hwL := walkLeft_spec st.glyphs text_index idx0 hti
      have hwR := walkRightGo_spec st.glyphs text_index st.glyphs.length idx0
        hidx0 hti
      simp only [find_check_index, hbs] at hidx
      cases hdir : st.dir
      · rw [hdir] at hidx
        simp only [Dir.is_positive, if_true] at hidx
        cases ht : towards
        · rw [ht] at hidx
          simp only at hidx
          cases hidx
          exact Nat.lt_of_le_of_lt hwL.1 hidx0
        · rw [ht] at hidx
          simp only at hidx
          cases hidx
          exact hwR.2.1
      · rw [hdir] at hidx
        simp only [Dir.is_positive, Bool.false_eq_true, if_false] at hidx
        have hne : st.glyphs ≠ [] := by
          intro hc
          rw [hc] at hidx0
          simp at hidx0
        have hlast :
            (st.glyphs.getD (st.glyphs.length - 1) default).text_index = 0 :=
          hinv.2.2.2.1 hne hdir
        have hfin : ∀ w, w < st.glyphs.length →
            (st.glyphs.getD w default).text_index = text_index →
            w + 1 < st.glyphs.length := by
          intro w hwlt hwti
          rcases Nat.lt_or_ge (w + 1) st.glyphs.length with hgood | hbad
          · exact hgood
          · have hw1 : w = st.glyphs.length - 1 := by omega
            rw [hw1, hlast] at hwti
            exact absurd hwti.symm h0
        cases ht : towards
        · rw [ht] at hidx
          simp only at hidx
          cases hidx
          exact hfin _ (Nat.lt_of_le_of_lt hwL.1 hidx0) hwL.2
        · rw [ht] at hidx
          simp only at hidx
          cases hidx
          exact hfin _ hwR.2.1 hwR.2.2
  refine ⟨hpart1, ?_⟩
  intro r hr
  by_cases h0 : text_index = 0
  · simp only [find_safe_to_break, if_pos h0] at hr
    cases hr
    cases st.dir.is_positive
    · simp
    · simp
  · by_cases hlen : text_index = st.text.length
    · simp only [find_safe_to_break, if_neg h0, if_pos hlen] at hr
      cases hr
      cases st.dir.is_positive
      · simp
      · simp
    · simp only [find_safe_to_break, if_neg h0, if_neg hlen] at hr
      rcases hfc : find_check_index st text_index towards with _ | idx
      · rw [hfc] at hr
        exact Option.noConfusion hr
      · rw [hfc] at hr
        have hr2 : (if (st.glyphs.getD idx default).safe_to_break = true
            then some idx else none) = some r := hr
        by_cases hsafe : (st.glyphs.getD idx default).safe_to_break = true
        · rw [if_pos hsafe] at hr2
          cases hr2
          exact Nat.le_of_lt (hpart1 h0 hlen _ hfc)
        · rw [if_neg hsafe] at hr2
          exact Option.noConfusion hr2

/-- Witness for C9 at a concrete right-to-left shaped text: the checked
index for text index 1 towards the right is 1, strictly below the glyph
count 2, and the returned offset is at most 2. -/
theorem find_safe_to_break_inbounds_witness :
    (1 : Nat) < rtlShaped.glyphs.length ∧ (1 : Nat) ≤ rtlShaped.glyphs.length := by
  have h := find_safe_to_break_inbounds rtlShaped
    (by refine ⟨?_, ?_, ?_, ?_, ?_⟩ <;> decide) 1 Side.Right
  exact ⟨h.1 (by decide) (by decide) 1 rfl, h.2 1 rfl⟩

/-- Helper: the ASCII case map never produces a newline from a
non-newline. -/
theorem applyChar_ne_newline (k : Case) (x : Nat) (h : x ≠ 10) :
    k.applyChar x ≠ 10 := by
  cases k <;> simp only [Case.applyChar] <;> split <;> omega

/-- Helper: the ASCII case map is idempotent. -/
theorem applyChar_idem (k : Case) (x : Nat) :
    k.applyChar (k.applyChar x) = k.applyChar x := by
  cases k <;> simp only [Case.applyChar] <;> (repeat' split) <;> omega

/-- Helper: the case-transformed text contains no newline when the source
text contains none. -/
theorem caseApplied_ne_newline (styles : Styles) (text : List Nat)
    (h : ∀ c ∈ text, c ≠ 10) : ∀ c ∈ caseApplied styles text, c ≠ 10 := by
  intro c hc
  unfold caseApplied at hc
  rcases hcase : styles.case with _ | k
  · rw [hcase] at hc
    exact h c hc
  · rw [hcase] at hc
    rcases List.mem_map.mp hc with ⟨x, hx, hmap⟩
    rw [← hmap]
    exact applyChar_ne_newline k x (h x hx)

/-- Helper: applying the case transform to a contiguous sub-slice of
already-transformed text is the identity. -/
theorem caseApplied_extract (styles : Styles) (text : List Nat) (a n : Nat) :
    caseApplied styles (((caseApplied styles text).drop a).take n)
      = ((caseApplied styles text).drop a).take n := by
  unfold caseApplied
  rcases styles.case with _ | k
  · rfl
  · show Case.apply k _ = _
    unfold Case.apply
    rw [← List.map_drop, ← List.map_take, List.map_map]
    exact List.map_congr_left fun x _ => applyChar_idem k x

/-- Helper: tracking zero is the identity. -/
theorem track_zero (glyphs : List ShapedGlyph) : track glyphs 0 = glyphs := by
  simp [track]

/-- Helper: nonempty newline-free text fails the all-newline test. -/
theorem not_all_newline (text : List Nat) (hne : text ≠ [])
    (h : ∀ c ∈ text, c ≠ 10) : text.all (fun c => c == 10) = false := by
  rcases text with _ | ⟨c, rest⟩
  · exact absurd rfl hne
  · have hc := h c (List.mem_cons_self c rest)
    simp [List.all_cons, hc]

/-- Helper: with the fallback flag set but no unmapped glyph in the engine
output, the collection loop keeps every glyph. -/
theorem collect_all_mapped (text : List Nat) (dir : Dir) (base face_id : Nat)
    (rt : Nat → List Nat → List ShapedGlyph) :
    ∀ (infos : List EngineGlyph) (prev : Option EngineGlyph),
    (∀ g ∈ infos, g.glyph_id ≠ 0) →
    collectGlyphs text dir base face_id true rt prev [] none infos
      = infos.map (mkShaped face_id base)
  | [], _, _ => rfl
  | info :: rest, prev, h => by
    have hc : info.glyph_id ≠ 0 ∨ true = false :=
      Or.inl (h info (List.mem_cons_self info rest))
    simp only [collectGlyphs, if_pos hc, flushRun, List.nil_append, List.map_cons]
    rw [collect_all_mapped text dir base face_id rt rest (some info)
      (fun g hg => h g (List.mem_cons_of_mem info hg))]

/-- Helper: when the families before `fam` select no face, `fam` selects
`f1`, the text is not all newlines and face `f1` maps every cluster,
`shape_segment` is exactly the translated engine output of `f1`. -/
theorem shape_segment_formula (fonts : FontStore) (base : Nat) (text : List Nat)
    (fvariant : FontVariant) (dir : Dir) (tgs : List Feature)
    (fam : String) (rest : List String) (f1 : Nat)
    (hsel : fonts.select fam fvariant = some f1)
    (hnl : text.all (fun c => c == 10) = false)
    (hto : ∀ g ∈ fonts.shapeRun f1 text dir tgs, g.glyph_id ≠ 0) :
    ∀ pre : List String, (∀ p ∈ pre, fonts.select p fvariant = none) →
    shape_segment fonts base text fvariant (pre ++ fam :: rest) none dir tgs
      = (fonts.shapeRun f1 text dir tgs).map (mkShaped f1 base)
  | [], _ => by
    rw [List.nil_append]
    show (if text.all (fun c => c == 10) then _ else _) = _
    rw [hnl]
    simp only [Bool.false_eq_true, if_false, hsel]
    exact collect_all_mapped text dir base f1 _ (fonts.shapeRun f1 text dir tgs)
      none hto
  | p :: pre2, hpre => by
    have hps : fonts.select p fvariant = none := hpre p (List.mem_cons_self p pre2)
    have ih := shape_segment_formula fonts base text fvariant dir tgs fam rest f1
      hsel hnl hto pre2 (fun q hq => hpre q (List.mem_cons_of_mem p hq))
    rw [List.cons_append]
    show (if text.all (fun c => c == 10) then _ else _) = _
    rw [hnl]
    simp only [Bool.false_eq_true, if_false, hps]
    exact ih

/-- Helper: the glyphs of `shape` under zero tracking, a nonempty
newline-free transformed text and a first selectable face that maps
everything: the translated engine output of that face. -/
theorem shape_glyphs_sel (fonts : FontStore) (text : List Nat) (styles : Styles)
    (dir : Dir) (pre rest : List String) (fam : String) (f1 : Nat)
    (htrack0 : styles.tracking = 0)
    (hfam : families styles = pre ++ fam :: rest)
    (hpre : ∀ p ∈ pre, fonts.select p (variant styles) = none)
    (hsel : fonts.select fam (variant styles) = some f1)
    (hne : caseApplied styles text ≠ [])
    (hnl : ∀ c ∈ caseApplied styles text, c ≠ 10)
    (hto : ∀ g ∈ fonts.shapeRun f1 (caseApplied styles text) dir (tags styles),
      g.glyph_id ≠ 0) :
    (shape fonts text styles dir).glyphs
      = (fonts.shapeRun f1 (caseApplied styles text) dir (tags styles)).map
          (mkShaped f1 0) := by
  have h1 : (shape fonts text styles dir).glyphs
      = track (if (caseApplied styles text).isEmpty then []
               else shape_segment fonts 0 (caseApplied styles text)
                 (variant styles) (families styles) none dir (tags styles))
          styles.tracking := rfl
  rw [h1, htrack0, track_zero]
  rw [if_neg (by simp [List.isEmpty_iff, hne])]
  rw [hfam]
  exact shape_segment_formula fonts 0 (caseApplied styles text) (variant styles)
    dir (tags styles) fam rest f1 hsel
    (not_all_newline _ hne hnl) hto pre hpre

/-- Helper: the glyphs of `shape` when no family selects a face. -/
theorem shape_glyphs_none (fonts : FontStore) (text : List Nat) (styles : Styles)
    (dir : Dir)
    (h : ∀ fam ∈ families styles, fonts.select fam (variant styles) = none) :
    (shape fonts text styles dir).glyphs = [] := by
  have h1 : (shape fonts text styles dir).glyphs
      = track (if (caseApplied styles text).isEmpty then []
               else shape_segment fonts 0 (caseApplied styles text)
                 (variant styles) (families styles) none dir (tags styles))
          styles.tracking := rfl
  rw [h1, shape_segment_select_none fonts 0 _ (variant styles) dir (tags styles)
    (families styles) h, ite_self]
  by_cases h0 : styles.tracking = 0 <;> simp [track, trackLoop, h0]

/-- Helper: shaping empty text yields no glyphs. -/
theorem shape_nil_glyphs (fonts : FontStore) (styles : Styles) (dir : Dir) :
    (shape fonts [] styles dir).glyphs = [] := by
  have h1 : (shape fonts [] styles dir).glyphs
      = track (if (caseApplied styles []).isEmpty then []
               else shape_segment fonts 0 (caseApplied styles [])
                 (variant styles) (families styles) none dir (tags styles))
          styles.tracking := rfl
  have hca : caseApplied styles [] = [] := by
    unfold caseApplied
    rcases styles.case with _ | k
    · rfl
    · rfl
  rw [h1, hca]
  by_cases h0 : styles.tracking = 0 <;> simp [track, trackLoop, h0]

/-- Helper: the text field of `shape` is the case-transformed input. -/
theorem shape_text (fonts : FontStore) (text : List Nat) (styles : Styles)
    (dir : Dir) : (shape fonts text styles dir).text = caseApplied styles text :=
  rfl

/-- Helper: inversion of a successful `slice_safe_to_break`. -/
theorem slice_some_elim (st : ShapedText) (r : Nat × Nat)
    (gs : List ShapedGlyph) (h : slice_safe_to_break st r = some gs) :
    ∃ left right,
      find_safe_to_break st (if st.dir.is_positive then r.1 else r.2)
          Side.Left = some left ∧
      find_safe_to_break st (if st.dir.is_positive then r.2 else r.1)
          Side.Right = some right ∧
      gs = (st.glyphs.drop left).take (right - left) := by
  simp only [slice_safe_to_break] at h
  rcases hL : find_safe_to_break st (if st.dir.is_positive then r.1 else r.2)
      Side.Left with _ | left
  · rw [hL] at h
    exact Option.noConfusion h
  · rw [hL] at h
    rcases hR : find_safe_to_break st (if st.dir.is_positive then r.2 else r.1)
        Side.Right with _ | right
    · rw [hR] at h
      exact Option.noConfusion h
    · rw [hR] at h
      cases h
      exact ⟨left, right, rfl, rfl, rfl⟩

/-- Helper: the glyphs of `reshape` in terms of the slice result. -/
theorem reshape_glyphs_some (fonts : FontStore) (st : ShapedText)
    (r : Nat × Nat) (gs : List ShapedGlyph)
    (h : slice_safe_to_break st r = some gs) :
    (reshape fonts st r).glyphs = gs := by
  unfold reshape
  rw [h]

/-- Helper: with empty glyphs, an interior boundary cannot be resolved. -/
theorem find_empty_interior (st : ShapedText) (ti : Nat) (towards : Side)
    (hg : st.glyphs = []) (h0 : ti ≠ 0) (hlen : ti ≠ st.text.length) :
    find_safe_to_break st ti towards = none := by
  simp [find_safe_to_break, h0, hlen, find_check_index, binary_search_by, hg,
    binarySearchGo]

/-- Helper: edge case of `find_safe_to_break` at text index 0. -/
theorem find_zero (st : ShapedText) (towards : Side) :
    find_safe_to_break st 0 towards
      = some (if st.dir.is_positive then 0 else st.glyphs.length) := by
  simp [find_safe_to_break]

/-- Helper: edge case of `find_safe_to_break` at the full text length. -/
theorem find_len (st : ShapedText) (towards : Side)
    (hne : st.text.length ≠ 0) :
    find_safe_to_break st st.text.length towards
      = some (if st.dir.is_positive then st.glyphs.length else 0) := by
  simp [find_safe_to_break, hne]

/-- Helper: a successful `find_check_index` is a direction-adjusted walk
result landing on a glyph with the searched text index. -/
theorem find_check_index_spec (st : ShapedText) (ti : Nat) (towards : Side)
    (idx : Nat) (h : find_check_index st ti towards = some idx) :
    ∃ w, idx = (if st.dir.is_positive then w else w + 1) ∧
      w < st.glyphs.length ∧ (st.glyphs.getD w default).text_index = ti := by
  rcases hbs : binary_search_by st.glyphs
      (glyphOrdering st.dir.is_positive ti) with _ | idx0
  · simp [find_check_index, hbs] at h
  · have hspec := binarySearchGo_some st.glyphs
      (glyphOrdering st.dir.is_positive ti) st.glyphs.length 0
      st.glyphs.length idx0 hbs
    have hti : (st.glyphs.getD idx0 default).text_index = ti :=
      (glyphOrdering_eq st.dir.is_positive ti _).mp hspec.2.2
    have hidx0 : idx0 < st.glyphs.length := hspec.2.1
    simp only [find_check_index, hbs] at h
    cases towards
    · have hw := walkLeft_spec st.glyphs ti idx0 hti
      simp only at h
      cases h
      exact ⟨walkLeft st.glyphs ti idx0, rfl,
        Nat.lt_of_le_of_lt hw.1 hidx0, hw.2⟩
    · have hw := walkRightGo_spec st.glyphs ti st.glyphs.length idx0 hidx0 hti
      simp only at h
      cases h
      exact ⟨walkRight st.glyphs ti idx0, rfl, hw.2.1, hw.2.2⟩

/-- Helper: interior boundary resolution in left-to-right direction: the
returned offset is in bounds, on a safe glyph whose cluster starts at the
boundary. -/
theorem find_interior_ltr (st : ShapedText) (ti : Nat) (towards : Side)
    (r : Nat) (hdir : st.dir = Dir.ltr) (h0 : ti ≠ 0)
    (hlen : ti ≠ st.text.length)
    (h : find_safe_to_break st ti towards = some r) :
    r < st.glyphs.length ∧ (st.glyphs.getD r default).text_index = ti ∧
    (st.glyphs.getD r default).safe_to_break = true := by
  simp only [find_safe_to_break, if_neg h0, if_neg hlen] at h
  rcases hfc : find_check_index st ti towards with _ | idx
  · rw [hfc] at h
    exact Option.noConfusion h
  · rw [hfc] at h
    have h2 : (if (st.glyphs.getD idx default).safe_to_break = true
        then some idx else none) = some r := h
    by_cases hsafe : (st.glyphs.getD idx default).safe_to_break = true
    · rw [if_pos hsafe] at h2
      cases h2
      obtain ⟨w, hw, hwlt, hwti⟩ := find_check_index_spec st ti towards r hfc
      have hpos : st.dir.is_positive = true := by rw [hdir]; rfl
      rw [hpos, if_pos rfl] at hw
      subst hw
      exact ⟨hwlt, hwti, hsafe⟩
    · rw [if_neg hsafe] at h2
      exact Option.noConfusion h2

/-- Helper: interior boundary resolution in right-to-left direction: the
returned offset is positive and in bounds, the glyph before it has its
cluster at the boundary and the glyph at it is safe to break. -/
theorem find_interior_rtl (st : ShapedText) (ti : Nat) (towards : Side)
    (r : Nat) (hdir : st.dir = Dir.rtl) (h0 : ti ≠ 0)
    (hlen : ti ≠ st.text.length)
    (h : find_safe_to_break st ti towards = some r) :
    0 < r ∧ r < st.glyphs.length ∧
    (st.glyphs.getD (r - 1) default).text_index = ti ∧
    (st.glyphs.getD r default).safe_to_break = true := by
  simp only [find_safe_to_break, if_neg h0, if_neg hlen] at h
  rcases hfc : find_check_index st ti towards with _ | idx
  · rw [hfc] at h
    exact Option.noConfusion h
  · rw [hfc] at h
    have h2 : (if (st.glyphs.getD idx default).safe_to_break = true
        then some idx else none) = some r := h
    by_cases hsafe : (st.glyphs.getD idx default).safe_to_break = true
    · rw [if_pos hsafe] at h2
      cases h2
      obtain ⟨w, hw, hwlt, hwti⟩ := find_check_index_spec st ti towards r hfc
      have hpos : st.dir.is_positive = false := by rw [hdir]; rfl
      rw [hpos] at hw
      simp only [Bool.false_eq_true, if_false] at hw
      subst hw
      have hrlt : w + 1 < st.glyphs.length := by
        by_contra hc
        rw [List.getD_eq_default _ _ (by omega)] at hsafe
        exact Bool.noConfusion hsafe
      exact ⟨Nat.succ_pos w, hrlt, by simpa using hwti, hsafe⟩
    · rw [if_neg hsafe] at h2
      exact Option.noConfusion h2

/-- Helper: `getD` through the glyph translation map. -/
theorem getD_map_mkShaped (f b : Nat) (out : List EngineGlyph) (i : Nat)
    (h : i < out.length) :
    (out.map (mkShaped f b)).getD i default = mkShaped f b (out.getD i default) := by
  rw [List.getD_eq_getElem?_getD, List.getElem?_map, List.getD_eq_getElem?_getD,
    List.getElem?_eq_getElem h]
  rfl

/-- Helper: monotone clusters compare along positions, left-to-right. -/
theorem clusters_le_ltr (out : List EngineGlyph)
    (h : ClustersMonotone Dir.ltr out) (i j : Nat) (hij : i ≤ j)
    (hj : j < out.length) :
    (out.getD i default).cluster ≤ (out.getD j default).cluster := by
  rcases Nat.eq_or_lt_of_le hij with rfl | hlt
  · exact Nat.le_refl _
  · have hp := List.pairwise_iff_getElem.mp h i j (by omega) hj hlt
    have hi2 : i < out.length := by omega
    rw [List.getD_eq_getElem?_getD, List.getD_eq_getElem?_getD,
      List.getElem?_eq_getElem hi2, List.getElem?_eq_getElem hj]
    simpa using hp

/-- Helper: monotone clusters compare along positions, right-to-left
(clusters decrease with visual position). -/
theorem clusters_le_rtl (out : List EngineGlyph)
    (h : ClustersMonotone Dir.rtl out) (i j : Nat) (hij : i ≤ j)
    (hj : j < out.length) :
    (out.getD j default).cluster ≤ (out.getD i default).cluster := by
  rcases Nat.eq_or_lt_of_le hij with rfl | hlt
  · exact Nat.le_refl _
  · have hp := List.pairwise_iff_getElem.mp h i j (by omega) hj hlt
    have hi2 : i < out.length := by omega
    rw [List.getD_eq_getElem?_getD, List.getD_eq_getElem?_getD,
      List.getElem?_eq_getElem hi2, List.getElem?_eq_getElem hj]
    simpa using hp

/-- Helper: shifting clusters by zero is the identity. -/
theorem clusterShift_zero (out : List EngineGlyph) :
    out.map (clusterShift 0) = out := by
  have hg : ∀ g : EngineGlyph, clusterShift 0 g = g := by
    intro g
    cases g
    simp [clusterShift]
  calc out.map (clusterShift 0) = out.map (fun g => g) :=
        List.map_congr_left fun g _ => hg g
    _ = out := List.map_id' out

/-- Helper: translating a cluster-shifted glyph and re-basing its text index
recovers the translation of the original glyph. -/
theorem shift_mk_cluster (f a : Nat) (g : EngineGlyph) (h : a ≤ g.cluster) :
    shiftTextIndex a (mkShaped f 0 (clusterShift a g)) = mkShaped f 0 g := by
  simp only [shiftTextIndex, mkShaped, clusterShift]
  congr 1
  omega

/-- Helper: equal takes of the same list at in-range lengths have equal
lengths. -/
theorem take_eq_inj (out : List EngineGlyph) (l rg : Nat)
    (hl : l ≤ out.length) (hr : rg ≤ out.length)
    (h : out.take l = out.take rg) : l = rg := by
  have hlen := congrArg List.length h
  simp only [List.length_take] at hlen
  omega

/-- Helper: equal drops of the same list at in-range offsets have equal
offsets. -/
theorem drop_eq_inj (out : List EngineGlyph) (l rg : Nat)
    (hl : l ≤ out.length) (hr : rg ≤ out.length)
    (h : out.drop l = out.drop rg) : l = rg := by
  have hlen := congrArg List.length h
  simp only [List.length_drop] at hlen
  omega

/-- Helper: `getD` through `drop`. -/
theorem getD_drop_eg (out : List EngineGlyph) (l m : Nat) :
    (out.drop l).getD m default = out.getD (l + m) default := by
  rw [List.getD_eq_getElem?_getD, List.getElem?_drop, List.getD_eq_getElem?_getD]

/-- Helper: `getD` through `take`, inside the taken prefix. -/
theorem getD_take_eg (out : List EngineGlyph) (n m : Nat) (h : m < n) :
    (out.take n).getD m default = out.getD m default := by
  rw [List.getD_eq_getElem?_getD, List.getElem?_take_of_lt h, List.getD_eq_getElem?_getD]

/-- Helper: `getD` through the cluster-shift map. -/
theorem getD_map_shift (c : Nat) (out : List EngineGlyph) (i : Nat)
    (h : i < out.length) :
    (out.map (clusterShift c)).getD i default
      = clusterShift c (out.getD i default) := by
  rw [List.getD_eq_getElem?_getD, List.getElem?_map, List.getD_eq_getElem?_getD,
    List.getElem?_eq_getElem h]
  rfl

/-- Helper: a member of a contiguous sub-slice sits at an absolute position
inside the slice bounds. -/
theorem mem_drop_take_pos (out : List EngineGlyph) (l k : Nat)
    (g : EngineGlyph) (hg : g ∈ (out.drop l).take k) :
    ∃ m, m < k ∧ l + m < out.length ∧ out.getD (l + m) default = g := by
  obtain ⟨m, hm, hgm⟩ := List.mem_iff_getElem.mp hg
  have hlen : m < k ∧ m < out.length - l := by
    have := hm
    simp [List.length_take, List.length_drop] at this
    omega
  refine ⟨m, hlen.1, by omega, ?_⟩
  rw [List.getD_eq_getElem?_getD, List.getElem?_eq_getElem (by omega)]
  rw [List.getElem_take] at hgm
  rw [List.getElem_drop] at hgm
  simpa using hgm

/-- Helper: engine-level heart of the amended reshape equivalence in
left-to-right direction.  Given the split contract, monotone clusters and
the boundary facts produced by `find_safe_to_break` (each boundary either an
edge or an interior safe cluster start), the engine output for the text
sub-range equals the glyph sub-slice with clusters re-based at `a`, and
every glyph of the sub-slice has its cluster at or after `a`. -/
theorem slice_core_ltr (E : List Nat → List EngineGlyph) (T2 : List Nat)
    (hsplit : SplitsLTR E) (hmono : ∀ t, ClustersMonotone Dir.ltr (E t))
    (hE0 : E [] = []) (hT2 : T2 ≠ [])
    (a b l rg : Nat) (hab : a ≤ b) (hb : b ≤ T2.length)
    (hL : (a = 0 ∧ l = 0) ∨ (a = T2.length ∧ l = (E T2).length) ∨
          (0 < a ∧ a < T2.length ∧ l < (E T2).length ∧
            ((E T2).getD l default).cluster = a ∧
            ((E T2).getD l default).unsafe_to_break = false))
    (hR : (b = 0 ∧ rg = 0) ∨ (b = T2.length ∧ rg = (E T2).length) ∨
          (0 < b ∧ b < T2.length ∧ rg < (E T2).length ∧
            ((E T2).getD rg default).cluster = b ∧
            ((E T2).getD rg default).unsafe_to_break = false)) :
    E ((T2.drop a).take (b - a))
      = (((E T2).drop l).take (rg - l)).map (clusterShift a) ∧
    ∀ g ∈ ((E T2).drop l).take (rg - l), a ≤ g.cluster := by
  have hmem : ∀ g ∈ ((E T2).drop l).take (rg - l), a ≤ g.cluster := by
    rcases hL with ⟨ha, hl⟩ | ⟨ha, hl⟩ | ⟨ha1, ha2, hll, hcl, hcu⟩
    · intro g _
      rw [ha]
      exact Nat.zero_le _
    · subst hl
      intro g hg
      rw [List.drop_length] at hg
      simp at hg
    · intro g hg
      obtain ⟨m, _, hpos, hgd⟩ := mem_drop_take_pos (E T2) l (rg - l) g hg
      have hle := clusters_le_ltr (E T2) (hmono T2) l (l + m)
        (Nat.le_add_right l m) hpos
      rw [hcl, hgd] at hle
      exact hle
  refine ⟨?_, hmem⟩
  rcases hL with ⟨ha, hl⟩ | ⟨ha, hl⟩ | ⟨ha1, ha2, hll, hcl, hcu⟩
  · subst ha
    subst hl
    simp only [List.drop_zero, Nat.sub_zero, clusterShift_zero]
    rcases hR with ⟨hb0, hr⟩ | ⟨hbl, hr⟩ | ⟨hb1, hb2, hrl, hrcl, hrcu⟩
    · subst hb0
      subst hr
      simp [hE0]
    · subst hr
      rw [hbl, List.take_length, List.take_length]
    · exact (hsplit T2 rg b (Or.inr ⟨hrl, hrcl, hrcu⟩)).1
  · have hbl : b = T2.length := Nat.le_antisymm hb (ha ▸ hab)
    subst hl
    simp [ha, hbl, hE0, List.drop_length]
  · have hdrop := (hsplit T2 l a (Or.inr ⟨hll, hcl, hcu⟩)).2
    rcases hR with ⟨hb0, hr⟩ | ⟨hbl, hr⟩ | ⟨hb1, hb2, hrl, hrcl, hrcu⟩
    · omega
    · subst hr
      have hba : b - a = (T2.drop a).length := by
        rw [List.length_drop, hbl]
      rw [hba, List.take_length, hdrop]
      have hxl : (E T2).length - l = ((E T2).drop l).length := by
        rw [List.length_drop]
      rw [hxl, List.take_length]
    · by_cases hab2 : a = b
      · have e1 := (hsplit T2 l a (Or.inr ⟨hll, hcl, hcu⟩)).1
        have e2 := (hsplit T2 rg b (Or.inr ⟨hrl, hrcl, hrcu⟩)).1
        rw [hab2] at e1
        have hlr : l = rg := take_eq_inj (E T2) l rg (Nat.le_of_lt hll)
          (Nat.le_of_lt hrl) (e1.symm.trans e2)
        subst hab2
        subst hlr
        simp [hE0]
      · have halb : a < b := Nat.lt_of_le_of_ne hab hab2
        have hlr : l < rg := by
          rcases Nat.lt_or_ge l rg with h | h
          · exact h
          · have hle := clusters_le_ltr (E T2) (hmono T2) rg l h hll
            rw [hcl, hrcl] at hle
            omega
        have hc2 : (E (T2.drop a)).getD (rg - l) default
            = clusterShift a ((E T2).getD rg default) := by
          rw [hdrop, getD_map_shift _ _ _ (by rw [List.length_drop]; omega),
            getD_drop_eg, show l + (rg - l) = rg from by omega]
        have hcond : (rg - l) < (E (T2.drop a)).length ∧
            ((E (T2.drop a)).getD (rg - l) default).cluster = b - a ∧
            ((E (T2.drop a)).getD (rg - l) default).unsafe_to_break = false := by
          refine ⟨?_, ?_, ?_⟩
          · rw [hdrop, List.length_map, List.length_drop]
            omega
          · rw [hc2]
            show ((E T2).getD rg default).cluster - a = b - a
            rw [hrcl]
          · rw [hc2]
            exact hrcu
        have h2 := (hsplit (T2.drop a) (rg - l) (b - a) (Or.inr hcond)).1
        rw [h2, hdrop, ← List.map_take]

/-- Helper: engine-level heart of the amended reshape equivalence in
right-to-left direction.  Clusters decrease with visual position, so the
boundary `b` resolves on the left of the glyph slice and the boundary `a`
on its right; otherwise as in the left-to-right case. -/
theorem slice_core_rtl (E : List Nat → List EngineGlyph) (T2 : List Nat)
    (hsplit : SplitsRTL E) (hmono : ∀ t, ClustersMonotone Dir.rtl (E t))
    (hE0 : E [] = []) (hT2 : T2 ≠ [])
    (a b l rg : Nat) (hab : a ≤ b) (hb : b ≤ T2.length)
    (hL : (b = 0 ∧ l = (E T2).length) ∨ (b = T2.length ∧ l = 0) ∨
          (0 < b ∧ b < T2.length ∧ 0 < l ∧ l < (E T2).length ∧
            ((E T2).getD (l - 1) default).cluster = b ∧
            ((E T2).getD l default).unsafe_to_break = false))
    (hR : (a = 0 ∧ rg = (E T2).length) ∨ (a = T2.length ∧ rg = 0) ∨
          (0 < a ∧ a < T2.length ∧ 0 < rg ∧ rg < (E T2).length ∧
            ((E T2).getD (rg - 1) default).cluster = a ∧
            ((E T2).getD rg default).unsafe_to_break = false)) :
    E ((T2.drop a).take (b - a))
      = (((E T2).drop l).take (rg - l)).map (clusterShift a) ∧
    ∀ g ∈ ((E T2).drop l).take (rg - l), a ≤ g.cluster := by
  have hmem : ∀ g ∈ ((E T2).drop l).take (rg - l), a ≤ g.cluster := by
    rcases hR with ⟨ha, hr⟩ | ⟨ha, hr⟩ | ⟨ha1, ha2, hr0, hrl, hrcl, hrcu⟩
    · intro g _
      rw [ha]
      exact Nat.zero_le _
    · subst hr
      intro g hg
      rw [Nat.zero_sub, List.take_zero] at hg
      simp at hg
    · intro g hg
      obtain ⟨m, hmk, hpos, hgd⟩ := mem_drop_take_pos (E T2) l (rg - l) g hg
      have hle := clusters_le_rtl (E T2) (hmono T2) (l + m) (rg - 1)
        (by omega) (by omega)
      rw [hrcl, hgd] at hle
      exact hle
  refine ⟨?_, hmem⟩
  rcases hR with ⟨ha, hr⟩ | ⟨ha, hr⟩ | ⟨ha1, ha2, hr0, hrl, hrcl, hrcu⟩
  · subst ha
    subst hr
    simp only [List.drop_zero, Nat.sub_zero, clusterShift_zero]
    have hfull : (E T2).length - l = ((E T2).drop l).length := by
      rw [List.length_drop]
    rw [hfull, List.take_length]
    rcases hL with ⟨hb0, hl⟩ | ⟨hbl, hl⟩ | ⟨hb1, hb2, hl0, hll, hlcl, hlcu⟩
    · subst hl
      rw [hb0, List.take_zero, hE0, List.drop_length]
    · subst hl
      rw [hbl, List.take_length, List.drop_zero]
    · exact (hsplit T2 l b hl0 hll hlcl hlcu).1
  · have hbl : b = T2.length := Nat.le_antisymm hb (ha ▸ hab)
    subst hr
    have hba0 : b - a = 0 := by omega
    simp [ha, hba0, hE0]
  · have hdrop1 : E (T2.drop a) = ((E T2).take rg).map (clusterShift a) :=
      (hsplit T2 rg a hr0 hrl hrcl hrcu).2
    rcases hL with ⟨hb0, hl⟩ | ⟨hbl, hl⟩ | ⟨hb1, hb2, hl0, hll, hlcl, hlcu⟩
    · omega
    · subst hl
      have hba : b - a = (T2.drop a).length := by
        rw [List.length_drop, hbl]
      rw [hba, List.take_length, hdrop1, List.drop_zero, Nat.sub_zero]
    · by_cases hab2 : a = b
      · have e1 := (hsplit T2 l b hl0 hll hlcl hlcu).1
        have e2 := (hsplit T2 rg a hr0 hrl hrcl hrcu).1
        rw [hab2] at e2
        have hlr : l = rg := drop_eq_inj (E T2) l rg (Nat.le_of_lt hll)
          (Nat.le_of_lt hrl) (e1.symm.trans e2)
        subst hab2
        subst hlr
        simp [hE0]
      · have halb : a < b := Nat.lt_of_le_of_ne hab hab2
        have hlr : l < rg := by
          rcases Nat.lt_or_ge l rg with h | h
          · exact h
          · have hle := clusters_le_rtl (E T2) (hmono T2) (rg - 1) (l - 1)
              (by omega) (by omega)
            rw [hrcl, hlcl] at hle
            omega
        have hX2len : (E (T2.drop a)).length = rg := by
          rw [hdrop1, List.length_map, List.length_take,
            Nat.min_eq_left (Nat.le_of_lt hrl)]
        have hc2l : (E (T2.drop a)).getD (l - 1) default
            = clusterShift a ((E T2).getD (l - 1) default) := by
          rw [hdrop1, getD_map_shift _ _ _
              (by rw [List.length_take, Nat.min_eq_left (Nat.le_of_lt hrl)]; omega),
            getD_take_eg _ _ _ (by omega)]
        have hc2u : (E (T2.drop a)).getD l default
            = clusterShift a ((E T2).getD l default) := by
          rw [hdrop1, getD_map_shift _ _ _
              (by rw [List.length_take, Nat.min_eq_left (Nat.le_of_lt hrl)]; omega),
            getD_take_eg _ _ _ (by omega)]
        have h2 := (hsplit (T2.drop a) l (b - a) hl0 (by rw [hX2len]; omega)
          (by rw [hc2l]
              show ((E T2).getD (l - 1) default).cluster - a = b - a
              rw [hlcl])
          (by rw [hc2u]
              exact hlcu)).1
        rw [h2, hdrop1, ← List.map_drop, List.drop_take]

/-- Helper: every family list either selects no face at all or splits at the
first family that selects one. -/
theorem select_decomp (fonts : FontStore) (v : FontVariant) :
    ∀ fams : List String,
    (∀ fam ∈ fams, fonts.select fam v = none) ∨
    ∃ pre fam rest f1, fams = pre ++ fam :: rest ∧
      (∀ p ∈ pre, fonts.select p v = none) ∧ fonts.select fam v = some f1
  | [] => Or.inl (by simp)
  | fam :: rest => by
    rcases hs : fonts.select fam v with _ | f1
    · rcases select_decomp fonts v rest with hnone |
        ⟨pre, fam2, rest2, f1, heq, hpre, hsel⟩
      · refine Or.inl ?_
        intro q hq
        rcases List.mem_cons.mp hq with rfl | hq2
        · exact hs
        · exact hnone q hq2
      · refine Or.inr ⟨fam :: pre, fam2, rest2, f1, by rw [heq, List.cons_append],
          ?_, hsel⟩
        intro p hp
        rcases List.mem_cons.mp hp with rfl | hp2
        · exact hs
        · exact hpre p hp2
    · exact Or.inr ⟨[], fam, rest, f1, rfl, by simp, hs⟩

/-- Helper: the case transform preserves the text length. -/
theorem caseApplied_length (styles : Styles) (t : List Nat) :
    (caseApplied styles t).length = t.length := by
  unfold caseApplied
  rcases styles.case with _ | k
  · rfl
  · exact List.length_map t k.applyChar

/-- Helper: a translated glyph's text index at base 0 is its cluster. -/
theorem mk_text_index (f : Nat) (g : EngineGlyph) :
    (mkShaped f 0 g).text_index = g.cluster := by
  simp [mkShaped]

/-- Helper: a translated glyph is safe to break exactly when the engine
glyph was not unsafe to break. -/
theorem mk_safe_unsafe (f b : Nat) (g : EngineGlyph)
    (h : (mkShaped f b g).safe_to_break = true) :
    g.unsafe_to_break = false := by
  cases hu : g.unsafe_to_break
  · rfl
  · rw [mkShaped] at h
    simp [hu] at h

/-- Helper: assembling the glyph-level reshape equivalence from the
engine-level core facts (direction independent). -/
theorem assemble_glyphs (E1 : List Nat → List EngineGlyph) (T2 : List Nat)
    (f1 a b l rg : Nat)
    (hcore1 : E1 ((T2.drop a).take (b - a))
      = (((E1 T2).drop l).take (rg - l)).map (clusterShift a))
    (hcore2 : ∀ g ∈ ((E1 T2).drop l).take (rg - l), a ≤ g.cluster) :
    (((E1 T2).map (mkShaped f1 0)).drop l).take (rg - l)
      = ((E1 ((T2.drop a).take (b - a))).map (mkShaped f1 0)).map
          (shiftTextIndex a) := by
  rw [hcore1, List.map_map, List.map_map, ← List.map_drop, ← List.map_take]
  exact List.map_congr_left fun g hg =>
    (shift_mk_cluster f1 a g (hcore2 g hg)).symm

/-- Helper: trichotomy of a resolved boundary in left-to-right direction,
stated at engine level. -/
theorem boundary_facts_ltr (fonts : FontStore) (T : List Nat) (styles : Styles)
    (f1 ti r : Nat) (towards : Side)
    (hfull : (shape fonts T styles Dir.ltr).glyphs
      = (fonts.shapeRun f1 (caseApplied styles T) Dir.ltr (tags styles)).map
          (mkShaped f1 0))
    (hT2len : (caseApplied styles T).length ≠ 0)
    (hle : ti ≤ (caseApplied styles T).length)
    (hf : find_safe_to_break (shape fonts T styles Dir.ltr) ti towards = some r) :
    (ti = 0 ∧ r = 0) ∨
    (ti = (caseApplied styles T).length ∧
      r = (fonts.shapeRun f1 (caseApplied styles T) Dir.ltr (tags styles)).length) ∨
    (0 < ti ∧ ti < (caseApplied styles T).length ∧
      r < (fonts.shapeRun f1 (caseApplied styles T) Dir.ltr (tags styles)).length ∧
      ((fonts.shapeRun f1 (caseApplied styles T) Dir.ltr
          (tags styles)).getD r default).cluster = ti ∧
      ((fonts.shapeRun f1 (caseApplied styles T) Dir.ltr
          (tags styles)).getD r default).unsafe_to_break = false) := by
  have hpos : (shape fonts T styles Dir.ltr).dir.is_positive = true := rfl
  have houtlen : (shape fonts T styles Dir.ltr).glyphs.length
      = (fonts.shapeRun f1 (caseApplied styles T) Dir.ltr (tags styles)).length := by
    rw [hfull, List.length_map]
  by_cases h0 : ti = 0
  · subst h0
    rw [find_zero] at hf
    rw [hpos] at hf
    simp at hf
    exact Or.inl ⟨rfl, hf.symm⟩
  · by_cases hL2 : ti = (caseApplied styles T).length
    · rw [show ti = (shape fonts T styles Dir.ltr).text.length from hL2] at hf
      rw [find_len _ towards hT2len] at hf
      rw [hpos] at hf
      simp at hf
      refine Or.inr (Or.inl ⟨hL2, ?_⟩)
      rw [← houtlen, hf]
    · have hint := find_interior_ltr (shape fonts T styles Dir.ltr) ti towards r
        rfl h0 (fun hc => hL2 hc) hf
      have hrlt : r <
          (fonts.shapeRun f1 (caseApplied styles T) Dir.ltr (tags styles)).length :=
        houtlen ▸ hint.1
      have hgd := getD_map_mkShaped f1 0
        (fonts.shapeRun f1 (caseApplied styles T) Dir.ltr (tags styles)) r hrlt
      have h21 := hint.2.1
      have h22 := hint.2.2
      rw [hfull, hgd, mk_text_index] at h21
      rw [hfull, hgd] at h22
      exact Or.inr (Or.inr ⟨Nat.pos_of_ne_zero h0,
        Nat.lt_of_le_of_ne hle hL2, hrlt, h21, mk_safe_unsafe f1 0 _ h22⟩)

/-- Helper: trichotomy of a resolved boundary in right-to-left direction,
stated at engine level. -/
theorem boundary_facts_rtl (fonts : FontStore) (T : List Nat) (styles : Styles)
    (f1 ti r : Nat) (towards : Side)
    (hfull : (shape fonts T styles Dir.rtl).glyphs
      = (fonts.shapeRun f1 (caseApplied styles T) Dir.rtl (tags styles)).map
          (mkShaped f1 0))
    (hT2len : (caseApplied styles T).length ≠ 0)
    (hle : ti ≤ (caseApplied styles T).length)
    (hf : find_safe_to_break (shape fonts T styles Dir.rtl) ti towards = some r) :
    (ti = 0 ∧
      r = (fonts.shapeRun f1 (caseApplied styles T) Dir.rtl (tags styles)).length) ∨
    (ti = (caseApplied styles T).length ∧ r = 0) ∨
    (0 < ti ∧ ti < (caseApplied styles T).length ∧ 0 < r ∧
      r < (fonts.shapeRun f1 (caseApplied styles T) Dir.rtl (tags styles)).length ∧
      ((fonts.shapeRun f1 (caseApplied styles T) Dir.rtl
          (tags styles)).getD (r - 1) default).cluster = ti ∧
      ((fonts.shapeRun f1 (caseApplied styles T) Dir.rtl
          (tags styles)).getD r default).unsafe_to_break = false) := by
  have hpos : (shape fonts T styles Dir.rtl).dir.is_positive = false := rfl
  have houtlen : (shape fonts T styles Dir.rtl).glyphs.length
      = (fonts.shapeRun f1 (caseApplied styles T) Dir.rtl (tags styles)).length := by
    rw [hfull, List.length_map]
  by_cases h0 : ti = 0
  · subst h0
    rw [find_zero] at hf
    rw [hpos] at hf
    simp at hf
    exact Or.inl ⟨rfl, by rw [← houtlen, hf]⟩
  · by_cases hL2 : ti = (caseApplied styles T).length
    · rw [show ti = (shape fonts T styles Dir.rtl).text.length from hL2] at hf
      rw [find_len _ towards hT2len] at hf
      rw [hpos] at hf
      simp at hf
      exact Or.inr (Or.inl ⟨hL2, hf.symm⟩)
    · have hint := find_interior_rtl (shape fonts T styles Dir.rtl) ti towards r
        rfl h0 (fun hc => hL2 hc) hf
      have hrlt : r <
          (fonts.shapeRun f1 (caseApplied styles T) Dir.rtl (tags styles)).length :=
        houtlen ▸ hint.2.1
      have hgd1 := getD_map_mkShaped f1 0
        (fonts.shapeRun f1 (caseApplied styles T) Dir.rtl (tags styles)) (r - 1)
        (by omega)
      have hgd2 := getD_map_mkShaped f1 0
        (fonts.shapeRun f1 (caseApplied styles T) Dir.rtl (tags styles)) r hrlt
      have h21 := hint.2.2.1
      have h22 := hint.2.2.2
      rw [hfull, hgd1, mk_text_index] at h21
      rw [hfull, hgd2] at h22
      exact Or.inr (Or.inr ⟨Nat.pos_of_ne_zero h0,
        Nat.lt_of_le_of_ne hle hL2, hint.1, hrlt, h21, mk_safe_unsafe f1 0 _ h22⟩)

/-- C1 amended: reshape equivalence holds under zero tracking, for
newline-free text, when the first-selecting face's engine maps every
cluster (no fallback recursion) and the engine obeys the safe-to-break
split contract with visually ordered clusters: for S = shape(T) and any
sub-range whose boundaries `slice_safe_to_break` resolves, the glyph
sequence reused by `reshape` is exactly the glyph sequence of shaping the
sub-string under the same styles and direction, with every `text_index`
shifted up by the sub-range start.  (The counterexample shows the original
claim fails without the zero-tracking, no-tofu and newline-free
conditions.) -/
theorem reshape_equiv_amended
    (fonts : FontStore) (T : List Nat) (styles : Styles) (dir : Dir)
    (a b : Nat) (gs : List ShapedGlyph)
    (htrack : styles.tracking = 0)
    (hnl : ∀ c ∈ T, c ≠ 10)
    (hE0 : ∀ f, fonts.shapeRun f [] dir (tags styles) = [])
    (hto : ∀ f t g, g ∈ fonts.shapeRun f t dir (tags styles) → g.glyph_id ≠ 0)
    (hmono : ∀ f t, ClustersMonotone dir (fonts.shapeRun f t dir (tags styles)))
    (hsplitL : dir = Dir.ltr →
      ∀ f, SplitsLTR (fun t => fonts.shapeRun f t dir (tags styles)))
    (hsplitR : dir = Dir.rtl →
      ∀ f, SplitsRTL (fun t => fonts.shapeRun f t dir (tags styles)))
    (hab : a ≤ b) (hb : b ≤ (shape fonts T styles dir).text.length)
    (hres : slice_safe_to_break (shape fonts T styles dir) (a, b) = some gs) :
    (reshape fonts (shape fonts T styles dir) (a, b)).glyphs
      = ((shape fonts (((shape fonts T styles dir).text.drop a).take (b - a))
            styles dir).glyphs).map (shiftTextIndex a) := by
  rw [reshape_glyphs_some fonts (shape fonts T styles dir) (a, b) gs hres]
  rw [shape_text] at hb ⊢
  have hnl2 : ∀ c ∈ caseApplied styles T, c ≠ 10 :=
    caseApplied_ne_newline styles T hnl
  rcases select_decomp fonts (variant styles) (families styles) with hnone |
      ⟨pre, fam, rest, f1, hfam, hpre, hsel⟩
  · have hGl : (shape fonts T styles dir).glyphs = [] :=
      shape_glyphs_none fonts T styles dir hnone
    obtain ⟨left, right, hfL, hfR, hgs⟩ :=
      slice_some_elim (shape fonts T styles dir) (a, b) gs hres
    have hgs0 : gs = [] := by
      rw [hgs, hGl]
      simp
    have hRHS : (shape fonts (((caseApplied styles T).drop a).take (b - a))
        styles dir).glyphs = [] :=
      shape_glyphs_none fonts _ styles dir hnone
    rw [hgs0, hRHS]
    rfl
  · by_cases hT2e : caseApplied styles T = []
    · have hT : T = [] := by
        have hlen := caseApplied_length styles T
        rw [hT2e] at hlen
        exact List.length_eq_zero.mp hlen.symm
      have hGl : (shape fonts T styles dir).glyphs = [] := by
        rw [hT]
        exact shape_nil_glyphs fonts styles dir
      have hgs0 : gs = [] := by
        obtain ⟨left, right, _, _, hgs⟩ := slice_some_elim _ (a, b) gs hres
        rw [hgs, hGl]
        simp
      have hsub : ((caseApplied styles T).drop a).take (b - a) = [] := by
        rw [hT2e]
        simp
      rw [hgs0, hsub, shape_nil_glyphs]
      rfl
    · have hfull : (shape fonts T styles dir).glyphs
          = (fonts.shapeRun f1 (caseApplied styles T) dir (tags styles)).map
              (mkShaped f1 0) :=
        shape_glyphs_sel fonts T styles dir pre rest fam f1 htrack hfam hpre hsel
          hT2e hnl2 (fun g hg => hto f1 (caseApplied styles T) g hg)
      have hT2len : (caseApplied styles T).length ≠ 0 :=
        fun hc => hT2e (List.length_eq_zero.mp hc)
      obtain ⟨left, right, hfL, hfR, hgs⟩ :=
        slice_some_elim (shape fonts T styles dir) (a, b) gs hres
      -- RHS glyphs formula
      have hca : caseApplied styles (((caseApplied styles T).drop a).take (b - a))
          = ((caseApplied styles T).drop a).take (b - a) :=
        caseApplied_extract styles T a (b - a)
      have hRHSg : (shape fonts (((caseApplied styles T).drop a).take (b - a))
            styles dir).glyphs
          = (fonts.shapeRun f1 (((caseApplied styles T).drop a).take (b - a))
              dir (tags styles)).map (mkShaped f1 0) := by
        by_cases hab2 : a = b
        · have hsub : ((caseApplied styles T).drop a).take (b - a) = [] := by
            rw [hab2, Nat.sub_self, List.take_zero]
          rw [hsub, shape_nil_glyphs, hE0 f1]
          rfl
        · have halb : a < b := Nat.lt_of_le_of_ne hab hab2
          have hsubne : ((caseApplied styles T).drop a).take (b - a) ≠ [] := by
            intro hc
            have hlen := congrArg List.length hc
            simp [List.length_take, List.length_drop] at hlen
            omega
          have hsubnl : ∀ c ∈ ((caseApplied styles T).drop a).take (b - a),
              c ≠ 10 := fun c hc =>
            hnl2 c (List.mem_of_mem_drop (List.mem_of_mem_take hc))
          have h1 := shape_glyphs_sel fonts
            (((caseApplied styles T).drop a).take (b - a)) styles dir pre rest
            fam f1 htrack hfam hpre hsel (by rw [hca]; exact hsubne)
            (by rw [hca]; exact hsubnl)
            (by rw [hca]; exact fun g hg => hto f1 _ g hg)
          rw [h1, hca]
      rw [hgs, hfull, hRHSg]
      -- now goal is assemble-shaped; derive core facts per direction
      cases dir
      · have hposd : (shape fonts T styles Dir.ltr).dir.is_positive = true := rfl
        simp [hposd] at hfL hfR
        have hLd := boundary_facts_ltr fonts T styles f1 a left Side.Left hfull
          hT2len (Nat.le_trans hab hb) hfL
        have hRd := boundary_facts_ltr fonts T styles f1 b right Side.Right hfull
          hT2len hb hfR
        have hcore := slice_core_ltr
          (fun t => fonts.shapeRun f1 t Dir.ltr (tags styles))
          (caseApplied styles T) (hsplitL rfl f1) (fun t => hmono f1 t)
          (hE0 f1) hT2e a b left right hab hb hLd hRd
        exact assemble_glyphs (fun t => fonts.shapeRun f1 t Dir.ltr (tags styles))
          (caseApplied styles T) f1 a b left right hcore.1 hcore.2
      · have hposd : (shape fonts T styles Dir.rtl).dir.is_positive = false := rfl
        simp [hposd] at hfL hfR
        have hLd := boundary_facts_rtl fonts T styles f1 b left Side.Left hfull
          hT2len hb hfL
        have hRd := boundary_facts_rtl fonts T styles f1 a right Side.Right hfull
          hT2len (Nat.le_trans hab hb) hfR
        have hcore := slice_core_rtl
          (fun t => fonts.shapeRun f1 t Dir.rtl (tags styles))
          (caseApplied styles T) (hsplitR rfl f1) (fun t => hmono f1 t)
          (hE0 f1) hT2e a b left right hab hb
          (by rcases hLd with h | h | h
              · exact Or.inl h
              · exact Or.inr (Or.inl h)
              · exact Or.inr (Or.inr h))
          (by rcases hRd with h | h | h
              · exact Or.inl h
              · exact Or.inr (Or.inl h)
              · exact Or.inr (Or.inr h))
        exact assemble_glyphs (fun t => fonts.shapeRun f1 t Dir.rtl (tags styles))
          (caseApplied styles T) f1 a b left right hcore.1 hcore.2

/-- Helper: the reference engine emits one glyph per codepoint. -/
theorem idRun_length (i : Nat) : ∀ t : List Nat, (idRun i t).length = t.length
  | [] => rfl
  | _ :: cs => by
    simp only [idRun, List.length_cons]
    rw [idRun_length (i + 1) cs]

/-- Helper: the reference engine never emits glyph index 0. -/
theorem idRun_mem_pos (i : Nat) : ∀ (t : List Nat) (g : EngineGlyph),
    g ∈ idRun i t → g.glyph_id ≠ 0
  | [], g, hg => by simp [idRun] at hg
  | c :: cs, g, hg => by
    rcases List.mem_cons.mp hg with rfl | hg2
    · simp
    · exact idRun_mem_pos (i + 1) cs g hg2

/-- Helper: clusters of the reference engine start at the base. -/
theorem idRun_cluster_ge (i : Nat) : ∀ (t : List Nat) (g : EngineGlyph),
    g ∈ idRun i t → i ≤ g.cluster
  | [], g, hg => by simp [idRun] at hg
  | c :: cs, g, hg => by
    rcases List.mem_cons.mp hg with rfl | hg2
    · exact Nat.le_refl i
    · exact Nat.le_trans (Nat.le_succ i) (idRun_cluster_ge (i + 1) cs g hg2)

/-- Helper: the reference engine's clusters are non-decreasing. -/
theorem idRun_pairwise (i : Nat) : ∀ t : List Nat,
    (idRun i t).Pairwise fun a b => a.cluster ≤ b.cluster
  | [] => List.Pairwise.nil
  | c :: cs => by
    refine List.Pairwise.cons ?_ (idRun_pairwise (i + 1) cs)
    intro g hg
    exact Nat.le_trans (Nat.le_succ i) (idRun_cluster_ge (i + 1) cs g hg)

/-- Helper: the reference engine's cluster at a position. -/
theorem idRun_getD_cluster (i : Nat) : ∀ (t : List Nat) (j : Nat),
    j < t.length → ((idRun i t).getD j default).cluster = i + j
  | [], j, hj => by simp at hj
  | c :: cs, 0, _ => rfl
  | c :: cs, j + 1, hj => by
    show ((idRun (i + 1) cs).getD j default).cluster = i + (j + 1)
    rw [idRun_getD_cluster (i + 1) cs j (by simpa using hj)]
    omega

/-- Helper: the reference engine commutes with text prefixes. -/
theorem idRun_take (i : Nat) : ∀ (t : List Nat) (n : Nat),
    idRun i (t.take n) = (idRun i t).take n
  | [], n => by simp [idRun]
  | c :: cs, 0 => rfl
  | c :: cs, n + 1 => by
    simp only [List.take_succ_cons, idRun]
    rw [idRun_take (i + 1) cs n]

/-- Helper: dropping reference-engine glyphs re-bases the cluster start. -/
theorem idRun_drop (i : Nat) : ∀ (t : List Nat) (n : Nat),
    (idRun i t).drop n = idRun (i + n) (t.drop n)
  | [], n => by simp [idRun]
  | c :: cs, 0 => rfl
  | c :: cs, n + 1 => by
    show (idRun (i + 1) cs).drop n = idRun (i + (n + 1)) (cs.drop n)
    rw [idRun_drop (i + 1) cs n]
    congr 1
    omega

/-- Helper: shifting reference-engine clusters down undoes a base offset. -/
theorem idRun_shift (n : Nat) : ∀ (t : List Nat) (i : Nat),
    (idRun (i + n) t).map (clusterShift n) = idRun i t
  | [], i => rfl
  | c :: cs, i => by
    simp only [idRun, List.map_cons, clusterShift]
    rw [show i + n - n = i from by omega,
      show i + n + 1 = i + 1 + n from by omega, idRun_shift n cs (i + 1)]

/-- Helper: the reference engine satisfies the left-to-right split
contract. -/
theorem idRun_splits : SplitsLTR (fun t => idRun 0 t) := by
  intro t j c hcond
  have hlen : (idRun 0 t).length = t.length := idRun_length 0 t
  have hcj : c = j ∧ j ≤ t.length := by
    rcases hcond with ⟨hj, hc⟩ | ⟨hj, hc, _⟩
    · rw [hlen] at hj
      exact ⟨by omega, by omega⟩
    · rw [hlen] at hj
      rw [idRun_getD_cluster 0 t j hj] at hc
      exact ⟨by omega, by omega⟩
  obtain ⟨hcj1, hjle⟩ := hcj
  rw [hcj1]
  constructor
  · exact idRun_take 0 t j
  · show idRun 0 (t.drop j) = ((idRun 0 t).drop j).map (clusterShift j)
    rw [idRun_drop 0 t j, Nat.zero_add]
    have := idRun_shift j (t.drop j) 0
    rw [Nat.zero_add] at this
    exact this.symm

/-- Helper: `slice_safe_to_break` only inspects the text, direction and
glyphs of a shaped text. -/
theorem slice_congr (st1 st2 : ShapedText) (h1 : st1.text = st2.text)
    (h2 : st1.dir = st2.dir) (h3 : st1.glyphs = st2.glyphs) (r : Nat × Nat) :
    slice_safe_to_break st1 r = slice_safe_to_break st2 r := by
  unfold slice_safe_to_break find_safe_to_break find_check_index binary_search_by
  rw [h1, h2, h3]

/-- C1 counterexample: in three concrete situations both boundaries of the
range are safe to break — `slice_safe_to_break` succeeds, so `reshape` reuses
the stored glyph slice — yet the reused slice differs from shaping the
sub-string afresh (with text indices re-based at the range start): (1) with
tracking 1, the reused slice carries the tracking adjustment baked in against
a following glyph that is no longer there; (2) after fallback re-shaping, the
reused glyphs come from the second family while re-shaping the sub-string
restarts from the first family, which now maps it; (3) a sub-range that is a
single newline re-shapes to no glyphs at all while the stored slice has
one. -/
theorem reshape_equiv_cex :
    (slice_safe_to_break (shape cexFonts [97, 98] stylesTrack Dir.ltr) (0, 1)
        = some [⟨3, 5, 2, 0, 0, true⟩] ∧
      (reshape cexFonts (shape cexFonts [97, 98] stylesTrack Dir.ltr)
          (0, 1)).glyphs
        ≠ ((shape cexFonts
              (((shape cexFonts [97, 98] stylesTrack Dir.ltr).text.drop 0).take
                (1 - 0)) stylesTrack Dir.ltr).glyphs).map (shiftTextIndex 0)) ∧
    (slice_safe_to_break (shape cexFonts [120, 121] stylesFall Dir.ltr) (1, 2)
        = some [⟨2, 11, 1, 0, 1, true⟩] ∧
      (reshape cexFonts (shape cexFonts [120, 121] stylesFall Dir.ltr)
          (1, 2)).glyphs
        ≠ ((shape cexFonts
              (((shape cexFonts [120, 121] stylesFall Dir.ltr).text.drop 1).take
                (2 - 1)) stylesFall Dir.ltr).glyphs).map (shiftTextIndex 1)) ∧
    (slice_safe_to_break (shape cexFonts [97, 10, 98] stylesNl Dir.ltr) (1, 2)
        = some [⟨4, 6, 1, 0, 1, true⟩] ∧
      (reshape cexFonts (shape cexFonts [97, 10, 98] stylesNl Dir.ltr)
          (1, 2)).glyphs
        ≠ ((shape cexFonts
              (((shape cexFonts [97, 10, 98] stylesNl Dir.ltr).text.drop 1).take
                (2 - 1)) stylesNl Dir.ltr).glyphs).map (shiftTextIndex 1)) := by
  have hSg : (shape cexFonts [97, 98] stylesTrack Dir.ltr).glyphs
      = [⟨3, 5, 2, 0, 0, true⟩, ⟨3, 6, 1, 0, 1, true⟩] := by
    show track [⟨3, 5, 1, 0, 0, true⟩, ⟨3, 6, 1, 0, 1, true⟩]
        stylesTrack.tracking = _
    norm_num [track, trackLoop, stylesTrack]
  have hslice : slice_safe_to_break (shape cexFonts [97, 98] stylesTrack
      Dir.ltr) (0, 1) = some [⟨3, 5, 2, 0, 0, true⟩] := by
    refine (slice_congr (shape cexFonts [97, 98] stylesTrack Dir.ltr)
      ⟨[97, 98], Dir.ltr, stylesTrack, ⟨0, 0⟩, 0,
      [⟨3, 5, 2, 0, 0, true⟩, ⟨3, 6, 1, 0, 1, true⟩]⟩ rfl rfl hSg (0, 1)).trans ?_
    decide
  have hRg : (shape cexFonts [97] stylesTrack Dir.ltr).glyphs
      = [⟨3, 5, 1, 0, 0, true⟩] := by
    show track [⟨3, 5, 1, 0, 0, true⟩] stylesTrack.tracking = _
    norm_num [track, trackLoop, stylesTrack]
  refine ⟨⟨hslice, ?_⟩, ⟨by decide, by decide⟩, ⟨by decide, by decide⟩⟩
  rw [reshape_glyphs_some cexFonts _ (0, 1) _ hslice]
  have hsub : ((shape cexFonts [97, 98] stylesTrack Dir.ltr).text.drop 0).take
      (1 - 0) = [97] := rfl
  rw [hsub, hRg]
  decide

theorem reshape_equiv_amended_witness :
    slice_safe_to_break (shape idFonts [97, 98] stylesId Dir.ltr) (0, 1)
        = some [⟨0, 98, 1, 0, 0, true⟩] ∧
    (reshape idFonts (shape idFonts [97, 98] stylesId Dir.ltr) (0, 1)).glyphs
      = ((shape idFonts
            (((shape idFonts [97, 98] stylesId Dir.ltr).text.drop 0).take
              (1 - 0)) stylesId Dir.ltr).glyphs).map (shiftTextIndex 0) := by
  have hres : slice_safe_to_break (shape idFonts [97, 98] stylesId Dir.ltr)
      (0, 1) = some [⟨0, 98, 1, 0, 0, true⟩] := by decide
  exact ⟨hres, reshape_equiv_amended idFonts [97, 98] stylesId Dir.ltr 0 1
    [⟨0, 98, 1, 0, 0, true⟩] rfl (by decide) (fun _ => rfl)
    (fun _ t g hg => idRun_mem_pos 0 t g hg)
    (fun _ t => idRun_pairwise 0 t)
    (fun _ _ => idRun_splits)
    (fun h => Dir.noConfusion h)
    (by decide) (by decide) hres⟩
